import Mathlib

/-!
# Verification of the wiki_mapper repository

Shallow embedding of the three source files of the repository:

* `main.py` — single-machine crawler (`WikiMapper`): SQLite-backed store of
  `articles(id AUTOINCREMENT, title UNIQUE, processed DEFAULT FALSE,
  last_updated DEFAULT CURRENT_TIMESTAMP)` and
  `links(from_article_id, to_article_title, UNIQUE(from_article_id, to_article_title))`,
  with `save_article_links`, `get_next_unprocessed_articles`, `batch_run`.
* `main_multi_machine.py` — same store plus MD5 hash partitioning
  (`get_article_hash`, `should_process_article`) and the CLI db-path resolution.
* `merge_databases.py` — `DatabaseMerger.merge_database` /
  `merge_multiple_databases`.

The SQLite state is modelled explicitly: a store is the list of article rows in
rowid (insertion) order, the list of link rows in insertion order, and the next
AUTOINCREMENT id.  A connection (`Conn`) is the last committed store together
with the pending uncommitted writes; `commit` applies them, `rollback` discards
them, which is exactly the semantics `sqlite3` provides to the Python code
(no intermediate commit happens inside `save_article_links`).
-/

namespace WikiMapper

/-- A row of the `articles` table:
`id INTEGER PRIMARY KEY AUTOINCREMENT, title TEXT UNIQUE NOT NULL,
processed BOOLEAN DEFAULT FALSE, last_updated TIMESTAMP DEFAULT CURRENT_TIMESTAMP`. -/
structure ArticleRow where
  id : Nat
  title : String
  processed : Bool
  lastUpdated : Nat
deriving DecidableEq

/-- A row of the `links` table (its own `id` column is never read by any query
in the repository, so it is not modelled):
`from_article_id INTEGER, to_article_title TEXT,
UNIQUE(from_article_id, to_article_title)`. -/
structure LinkRow where
  fromArticleId : Nat
  toArticleTitle : String
deriving DecidableEq

/-- One SQLite database file: `articles` rows in rowid order, `links` rows in
insertion order, and the next AUTOINCREMENT article id.  The `progress` table
is created by `init_database` but never written or read, so it is not
modelled. -/
structure Store where
  articles : List ArticleRow
  links : List LinkRow
  nextId : Nat
deriving DecidableEq

/-- The store produced by `init_database` on a fresh file. -/
def emptyStore : Store := ⟨[], [], 0⟩

/-- `SELECT ... FROM articles WHERE title = ?` (first matching row). -/
def findArticle (s : Store) (t : String) : Option ArticleRow :=
  s.articles.find? (fun r => r.title == t)

/-- The `processed` flag of the row for `t`, if any. -/
def processedOf (s : Store) (t : String) : Option Bool :=
  (findArticle s t).map (·.processed)

/-- The `last_updated` value of the row for `t`, if any. -/
def lastUpdatedOf (s : Store) (t : String) : Option Nat :=
  (findArticle s t).map (·.lastUpdated)

/-- `SELECT COUNT(*) FROM articles`. -/
def articleCount (s : Store) : Nat := s.articles.length

/-- `SELECT COUNT(*) FROM links`. -/
def linkCount (s : Store) : Nat := s.links.length

/-- `INSERT OR IGNORE INTO articles (title) VALUES (?)`: no-op if a row with
this title exists, otherwise append a row with the next AUTOINCREMENT id and
the column defaults `processed = FALSE`, `last_updated = CURRENT_TIMESTAMP`
(the current time is passed in as `now`). -/
def insertOrIgnoreArticle (s : Store) (t : String) (now : Nat) : Store :=
  match findArticle s t with
  | some _ => s
  | none =>
      { s with
        articles := s.articles ++ [⟨s.nextId, t, false, now⟩]
        nextId := s.nextId + 1 }

/-- `INSERT OR IGNORE INTO articles (title, processed) VALUES (?, ?)`
(used by the merger): like `insertOrIgnoreArticle` but with an explicit
`processed` value. -/
def insertOrIgnoreArticleProcessed (s : Store) (t : String) (p : Bool) (now : Nat) : Store :=
  match findArticle s t with
  | some _ => s
  | none =>
      { s with
        articles := s.articles ++ [⟨s.nextId, t, p, now⟩]
        nextId := s.nextId + 1 }

/-- `INSERT OR IGNORE INTO links (from_article_id, to_article_title) VALUES (?, ?)`:
no-op if the `(from, to)` pair is already present (UNIQUE constraint). -/
def insertOrIgnoreLink (s : Store) (fromId : Nat) (toTitle : String) : Store :=
  if s.links.any (fun l => l.fromArticleId == fromId && l.toArticleTitle == toTitle)
  then s
  else { s with links := s.links ++ [⟨fromId, toTitle⟩] }

/-- `UPDATE articles SET processed = TRUE WHERE id = ?`.  Note that
`last_updated` is not in the SET list, so it is left unchanged. -/
def markProcessedById (s : Store) (aid : Nat) : Store :=
  { s with
    articles := s.articles.map (fun r =>
      if r.id == aid then { r with processed := true } else r) }

/-- `UPDATE articles SET processed = TRUE WHERE title = ? AND processed = FALSE`
(used by the merger). -/
def markProcessedByTitle (s : Store) (t : String) : Store :=
  { s with
    articles := s.articles.map (fun r =>
      if r.title == t && r.processed == false then { r with processed := true } else r) }

/-! ## Connections and transactions

Python's `sqlite3` opens an implicit transaction on the first write and only
persists on `conn.commit()`; `conn.rollback()` discards every uncommitted
write.  `save_article_links` performs all its writes on one connection and
commits exactly once, at the end. -/

/-- A pending write on a connection. -/
inductive DbWrite where
  | insertArticle (title : String) (now : Nat)
  | insertLink (fromId : Nat) (toTitle : String)
  | setProcessed (articleId : Nat)
deriving DecidableEq

/-- Apply one write to a store. -/
def applyWrite (s : Store) : DbWrite → Store
  | .insertArticle t now => insertOrIgnoreArticle s t now
  | .insertLink fid toTitle => insertOrIgnoreLink s fid toTitle
  | .setProcessed aid => markProcessedById s aid

/-- An open `sqlite3` connection: the last committed store plus the pending
uncommitted writes of the implicit transaction. -/
structure Conn where
  base : Store
  pending : List DbWrite

/-- `sqlite3.connect(db_path)`. -/
def Conn.connect (s : Store) : Conn := ⟨s, []⟩

/-- `cursor.execute(...)` of a write statement: queued in the implicit
transaction. -/
def Conn.exec (c : Conn) (w : DbWrite) : Conn := ⟨c.base, c.pending ++ [w]⟩

/-- What reads on this same connection see: committed state plus pending
writes. -/
def Conn.view (c : Conn) : Store := c.pending.foldl applyWrite c.base

/-- `conn.commit()`: the store as persisted afterwards. -/
def Conn.commit (c : Conn) : Store := c.view

/-- `conn.rollback()`: the store as persisted afterwards — all pending writes
are discarded. -/
def Conn.rollback (c : Conn) : Store := c.base

/-! ## `WikiMapper.save_article_links` (main.py lines 84–112)

The body runs in a `try`: insert-or-ignore the article row, read its id back,
insert-or-ignore each link, set `processed = TRUE`, then `conn.commit()`.
On any exception the `except` branch logs and calls `conn.rollback()`.
`failAfter = some k` injects an exception after `k` of the post-lookup writes
have been executed (so `k` link inserts for `k ≤ links.length`); `none` is the
failure-free run. -/

def save_article_links (s : Store) (article_title : String) (links : List String)
    (now : Nat) (failAfter : Option Nat) : Store :=
  let c1 := (Conn.connect s).exec (.insertArticle article_title now)
  match findArticle c1.view article_title with
  | none => c1.rollback
  | some row =>
      let ws := links.map (fun l => DbWrite.insertLink row.id l) ++
        [DbWrite.setProcessed row.id]
      match failAfter with
      | some k => ((ws.take k).foldl Conn.exec c1).rollback
      | none => (ws.foldl Conn.exec c1).commit

/-- The row that `SELECT id FROM articles WHERE title = ?` reads back inside
the `save_article_links` transaction (after the insert-or-ignore, reads on the
same connection see the row). -/
def savedRow (s : Store) (t : String) (now : Nat) : ArticleRow :=
  (findArticle s t).getD ⟨s.nextId, t, false, now⟩

/-- `SELECT COUNT(*) FROM articles WHERE title = ?`: how many rows carry a
given title (the UNIQUE constraint keeps this at most 1). -/
def countTitle (s : Store) (t : String) : Nat :=
  (s.articles.filter (fun r => r.title == t)).length

/-! ## `WikiMapper.get_article_links` (main.py lines 57–82) and
`WikiMapper.batch_run` (173–194)

The HTTP fetch and HTML link extraction are external collaborators; what the
core sees is their outcome: either an exception (network / timeout / HTTP
error) or a list of extracted link titles.  `get_article_links` catches every
exception, logs it, and returns the empty list. -/

def get_article_links (fetchOutcome : Except Unit (List String)) : List String :=
  match fetchOutcome with
  | .error _ => []
  | .ok links => links

/-- One iteration of the inner loop of `batch_run` for one article:
`links = self.get_article_links(article); self.save_article_links(article, links)`.
`saveFailAfter` injects a persistence failure into the save transaction. -/
def processArticle (s : Store) (t : String) (fetchOutcome : Except Unit (List String))
    (now : Nat) (saveFailAfter : Option Nat) : Store :=
  save_article_links s t (get_article_links fetchOutcome) now saveFailAfter

/-- `WikiMapper.get_next_unprocessed_articles` (main.py lines 146–161):
`SELECT title FROM articles WHERE processed = FALSE ORDER BY id LIMIT ?`. -/
def get_next_unprocessed_articles (s : Store) (batch_size : Nat) : List String :=
  ((((s.articles.insertionSort (fun a b => a.id ≤ b.id)).filter
      (fun r => r.processed == false)).take batch_size).map (·.title))

/-! ## Store well-formedness

Invariants that `init_database` establishes on an empty file and that the
SQLite schema maintains: rowids strictly increase in insertion order and stay
below the AUTOINCREMENT counter, `title` is UNIQUE, and
`(from_article_id, to_article_title)` is UNIQUE. -/

/-- Every link's `from_article_id` resolves to an article row of the same
store.  Holds for every store the repository itself builds: links are only
ever inserted with an id just read back from the `articles` table. -/
def Store.LinksRef (s : Store) : Prop :=
  ∀ l ∈ s.links, ∃ r ∈ s.articles, l.fromArticleId = r.id

instance (s : Store) : Decidable s.LinksRef := by
  unfold Store.LinksRef
  infer_instance

def Store.WF (s : Store) : Prop :=
  List.Pairwise (· < ·) (s.articles.map (·.id)) ∧
  (∀ r ∈ s.articles, r.id < s.nextId) ∧
  (s.articles.map (·.title)).Nodup ∧
  s.links.Nodup

instance (s : Store) : Decidable s.WF :=
  instDecidableAnd

/-- The titles of the link targets of the row for `t`:
resolve the row by title, then
`SELECT to_article_title FROM links WHERE from_article_id = ?`. -/
def linkTitlesFrom (s : Store) (t : String) : List String :=
  match findArticle s t with
  | none => []
  | some r => (s.links.filter (fun l => l.fromArticleId == r.id)).map (·.toArticleTitle)

/-! ## `DatabaseMerger` (merge_databases.py)

`WikiMapperMultiMachine.save_article_links`, `get_next_unprocessed_articles`
and `batch_run` (main_multi_machine.py lines 107–135, 174–189, 201–222) are
line-for-line identical to the `WikiMapper` versions, so the embeddings above
cover both files.

`merge_database` iterates the input's article rows in order.  For each row it
(1) `INSERT OR IGNORE (title, processed)` into the output, (2) if the input
row is processed, `UPDATE ... SET processed = TRUE WHERE title = ? AND
processed = FALSE`, (3) re-reads both ids by title (`SELECT id ... WHERE
title = ?` on each database), and (4) copies the input links of that id with
`INSERT OR IGNORE`, attached to the output-side id.  The periodic
`output_conn.commit()` every 1000 articles and the final commit only affect
durability after a crash; on the failure-free path modelled here the committed
result equals applying all writes in order. -/

/-- The first half of the `for title, processed in articles` loop body of
`DatabaseMerger.merge_database` (merge_databases.py lines 77–90):
`INSERT OR IGNORE INTO articles (title, processed) VALUES (?, ?)`, then, if
the input row is processed,
`UPDATE articles SET processed = TRUE WHERE title = ? AND processed = FALSE`. -/
def mergeArticleFlag (out : Store) (a : ArticleRow) (now : Nat) : Store :=
  let out1 := insertOrIgnoreArticleProcessed out a.title a.processed now
  if a.processed then markProcessedByTitle out1 a.title else out1

/-- The body of the `for title, processed in articles` loop of
`DatabaseMerger.merge_database` (merge_databases.py lines 77–113) for one
input article row `a`: upsert the article and OR the flag, re-read both ids
by title (`SELECT id FROM articles WHERE title = ?` on each database), then
copy that input id's links with `INSERT OR IGNORE`, attached to the
output-side id. -/
def mergeArticle (inp : Store) (out : Store) (a : ArticleRow) (now : Nat) : Store :=
  let out2 := mergeArticleFlag out a now
  match findArticle inp a.title, findArticle out2 a.title with
  | some inRow, some outRow =>
      (inp.links.filter (fun l => l.fromArticleId == inRow.id)).foldl
        (fun acc l => insertOrIgnoreLink acc outRow.id l.toArticleTitle) out2
  | _, _ => out2

/-- `DatabaseMerger.merge_database` on an input store that exists and is
readable: merge every input article row, in order, into the output. -/
def mergeStore (inp out : Store) (now : Nat) : Store :=
  inp.articles.foldl (fun acc a => mergeArticle inp acc a now) out

/-- `DatabaseMerger.merge_database` (merge_databases.py lines 54–131).
`input = none` models a missing database file: `os.path.exists` fails, the
error is logged and `False` is returned with the output untouched. -/
def merge_database (out : Store) (input : Option Store) (now : Nat) : Bool × Store :=
  match input with
  | none => (false, out)
  | some inp => (true, mergeStore inp out now)

/-- `DatabaseMerger.merge_multiple_databases` (merge_databases.py lines
133–145): merge each input in order, counting successes; the final report
logs `success_count/len(input_databases)`, so the failed count is the
difference. -/
def merge_multiple_databases (out : Store) (inputs : List (Option Store)) (now : Nat) :
    Nat × Store :=
  inputs.foldl
    (fun acc i =>
      let r := merge_database acc.2 i now
      (acc.1 + (if r.1 then 1 else 0), r.2))
    (0, out)

/-! ## Multi-machine CLI db-path resolution (main_multi_machine.py lines 269–272)

```
db_path = f"wiki_mapping_machine_{args.machine_id}.db"
if args.db_path != 'wiki_mapping.db':
    db_path = args.db_path
```
-/

def resolve_db_path (dbPathArg : String) (machineId : Nat) : String :=
  let dbPath := "wiki_mapping_machine_" ++ toString machineId ++ ".db"
  if dbPathArg != "wiki_mapping.db" then dbPathArg else dbPath

/-! ## Hash partitioning (main_multi_machine.py lines 71–78)

`get_article_hash` is `int(hashlib.md5(title.encode('utf-8')).hexdigest(), 16)`:
the MD5 digest of the UTF-8 bytes of the title, its 16 bytes read as a
big-endian unsigned integer.  MD5 (RFC 1321) is embedded below in full so that
the partition function is the genuine one, computable by the kernel; all words
are `Nat` reduced modulo `2^32 = 4294967296`. -/

/-- The 64 MD5 round constants `K[i] = floor(2^32 * abs(sin(i+1)))`. -/
def kTable : List Nat := [
  0xd76aa478, 0xe8c7b756, 0x242070db, 0xc1bdceee,
  0xf57c0faf, 0x4787c62a, 0xa8304613, 0xfd469501,
  0x698098d8, 0x8b44f7af, 0xffff5bb1, 0x895cd7be,
  0x6b901122, 0xfd987193, 0xa679438e, 0x49b40821,
  0xf61e2562, 0xc040b340, 0x265e5a51, 0xe9b6c7aa,
  0xd62f105d, 0x02441453, 0xd8a1e681, 0xe7d3fbc8,
  0x21e1cde6, 0xc33707d6, 0xf4d50d87, 0x455a14ed,
  0xa9e3e905, 0xfcefa3f8, 0x676f02d9, 0x8d2a4c8a,
  0xfffa3942, 0x8771f681, 0x6d9d6122, 0xfde5380c,
  0xa4beea44, 0x4bdecfa9, 0xf6bb4b60, 0xbebfbc70,
  0x289b7ec6, 0xeaa127fa, 0xd4ef3085, 0x04881d05,
  0xd9d4d039, 0xe6db99e5, 0x1fa27cf8, 0xc4ac5665,
  0xf4292244, 0x432aff97, 0xab9423a7, 0xfc93a039,
  0x655b59c3, 0x8f0ccc92, 0xffeff47d, 0x85845dd1,
  0x6fa87e4f, 0xfe2ce6e0, 0xa3014314, 0x4e0811a1,
  0xf7537e82, 0xbd3af235, 0x2ad7d2bb, 0xeb86d391]

/-- The 64 MD5 per-round left-rotation amounts. -/
def sTable : List Nat := [
  7, 12, 17, 22, 7, 12, 17, 22, 7, 12, 17, 22, 7, 12, 17, 22,
  5, 9, 14, 20, 5, 9, 14, 20, 5, 9, 14, 20, 5, 9, 14, 20,
  4, 11, 16, 23, 4, 11, 16, 23, 4, 11, 16, 23, 4, 11, 16, 23,
  6, 10, 15, 21, 6, 10, 15, 21, 6, 10, 15, 21, 6, 10, 15, 21]

/-- 32-bit left rotation (the argument is a word below `2^32`). -/
def rotl32 (x n : Nat) : Nat :=
  ((x <<< n) % 4294967296) ||| (x >>> (32 - n))

/-- One MD5 round on the state `(a, b, c, d)` with message words `m`. -/
def md5Round (m : List Nat) (st : Nat × Nat × Nat × Nat) (i : Nat) :
    Nat × Nat × Nat × Nat :=
  let a := st.1
  let b := st.2.1
  let c := st.2.2.1
  let d := st.2.2.2
  let fg : Nat × Nat :=
    if i < 16 then ((b &&& c) ||| ((b ^^^ 0xffffffff) &&& d), i)
    else if i < 32 then ((d &&& b) ||| ((d ^^^ 0xffffffff) &&& c), (5 * i + 1) % 16)
    else if i < 48 then (b ^^^ c ^^^ d, (3 * i + 5) % 16)
    else (c ^^^ (b ||| (d ^^^ 0xffffffff)), (7 * i) % 16)
  let f := (fg.1 + a + kTable.getD i 0 + m.getD fg.2 0) % 4294967296
  (d, (b + rotl32 f (sTable.getD i 0)) % 4294967296, b, c)

/-- Compress one 512-bit chunk (16 message words) into the running state. -/
def processChunk (st : Nat × Nat × Nat × Nat) (m : List Nat) :
    Nat × Nat × Nat × Nat :=
  let r := (List.range 64).foldl (md5Round m) st
  ((st.1 + r.1) % 4294967296, (st.2.1 + r.2.1) % 4294967296,
   (st.2.2.1 + r.2.2.1) % 4294967296, (st.2.2.2 + r.2.2.2) % 4294967296)

/-- Little-endian 32-bit words from a byte list (length a multiple of 4). -/
def toWords : List Nat → List Nat
  | b0 :: b1 :: b2 :: b3 :: rest =>
      (b0 + b1 * 256 + b2 * 65536 + b3 * 16777216) :: toWords rest
  | _ => []

/-- Split a word list into chunks of 16 words. -/
def chunk16 : List Nat → List (List Nat)
  | w0 :: w1 :: w2 :: w3 :: w4 :: w5 :: w6 :: w7 ::
    w8 :: w9 :: w10 :: w11 :: w12 :: w13 :: w14 :: w15 :: rest =>
      [w0, w1, w2, w3, w4, w5, w6, w7, w8, w9, w10, w11, w12, w13, w14, w15] ::
        chunk16 rest
  | _ => []

/-- The message bit length as 8 little-endian bytes. -/
def lenBytes (bitLen : Nat) : List Nat :=
  [bitLen % 256, bitLen / 256 % 256, bitLen / 65536 % 256, bitLen / 16777216 % 256,
   bitLen / 4294967296 % 256, bitLen / 1099511627776 % 256,
   bitLen / 281474976710656 % 256, bitLen / 72057594037927936 % 256]

/-- MD5 padding: a `0x80` byte, zeros to 56 mod 64 bytes, then the 64-bit
little-endian bit length. -/
def pad (msg : List Nat) : List Nat :=
  msg ++ [0x80] ++ List.replicate ((119 - msg.length % 64) % 64) 0 ++
    lenBytes (8 * msg.length)

/-- A 32-bit word as 4 little-endian bytes. -/
def le4 (x : Nat) : List Nat :=
  [x % 256, x / 256 % 256, x / 65536 % 256, x / 16777216 % 256]

/-- A byte list read as a big-endian unsigned integer — `int(hexdigest, 16)`. -/
def beBytesToNat (bs : List Nat) : Nat :=
  bs.foldl (fun acc b => acc * 256 + b) 0

/-- The MD5 digest of a byte list, read as `int(hexdigest, 16)`: the 16 digest
bytes (each state word serialized little-endian) in big-endian order. -/
def md5Nat (msg : List Nat) : Nat :=
  let r := (chunk16 (toWords (pad msg))).foldl processChunk
    (0x67452301, 0xefcdab89, 0x98badcfe, 0x10325476)
  beBytesToNat (le4 r.1 ++ le4 r.2.1 ++ le4 r.2.2.1 ++ le4 r.2.2.2)

/-- `title.encode('utf-8')` as a list of byte values. -/
def utf8Bytes (s : String) : List Nat :=
  s.data.flatMap (fun c => (String.utf8EncodeChar c).map (fun b => b.toNat))

/-- `WikiMapperMultiMachine.get_article_hash` (main_multi_machine.py 71–73):
`int(hashlib.md5(title.encode('utf-8')).hexdigest(), 16)`. -/
def get_article_hash (title : String) : Nat :=
  md5Nat (utf8Bytes title)

/-- `WikiMapperMultiMachine.should_process_article` (main_multi_machine.py
75–78): `(article_hash % total_machines) == machine_id`. -/
def should_process_article (machine_id total_machines : Nat) (title : String) : Bool :=
  get_article_hash title % total_machines == machine_id

/-! ## Basic lemmas on connections and transactions -/

theorem base_foldl_exec (ws : List DbWrite) (c : Conn) :
    (ws.foldl Conn.exec c).base = c.base := by
  induction ws generalizing c with
  | nil => rfl
  | cons w ws ih => simp [List.foldl_cons, ih, Conn.exec]

theorem pending_foldl_exec (ws : List DbWrite) (c : Conn) :
    (ws.foldl Conn.exec c).pending = c.pending ++ ws := by
  induction ws generalizing c with
  | nil => simp
  | cons w ws ih => simp [List.foldl_cons, ih, Conn.exec]

theorem commit_foldl_exec (ws : List DbWrite) (c : Conn) :
    (ws.foldl Conn.exec c).commit = (c.pending ++ ws).foldl applyWrite c.base := by
  simp [Conn.commit, Conn.view, base_foldl_exec, pending_foldl_exec]

/-- Any rollback of a transaction built by `exec`s from a connection restores
the state the connection was opened on. -/
theorem rollback_foldl_exec (ws : List DbWrite) (s : Store) (c : Conn)
    (hc : c.base = s) : (ws.foldl Conn.exec c).rollback = s := by
  simp [Conn.rollback, base_foldl_exec, hc]

/-! ## Basic lemmas on the primitive store operations -/

theorem findArticle_title {s : Store} {t : String} {r : ArticleRow}
    (h : findArticle s t = some r) : r.title = t := by
  simpa using List.find?_some h

theorem findArticle_mem {s : Store} {t : String} {r : ArticleRow}
    (h : findArticle s t = some r) : r ∈ s.articles :=
  List.mem_of_find?_eq_some h

theorem insertOrIgnoreArticle_of_found {s : Store} {t : String} {r : ArticleRow}
    (now : Nat) (h : findArticle s t = some r) :
    insertOrIgnoreArticle s t now = s := by
  simp [insertOrIgnoreArticle, h]

theorem findArticle_insertOrIgnoreArticle_self (s : Store) (t : String) (now : Nat) :
    findArticle (insertOrIgnoreArticle s t now) t =
      some ((findArticle s t).getD ⟨s.nextId, t, false, now⟩) := by
  cases h : findArticle s t with
  | some r => simp [insertOrIgnoreArticle, h]
  | none =>
      simp only [insertOrIgnoreArticle, h, Option.getD_none]
      unfold findArticle at h ⊢
      simp [List.find?_append, h]

theorem findArticle_insertOrIgnoreArticle_ne {t' t : String} (s : Store) (now : Nat)
    (hne : t' ≠ t) :
    findArticle (insertOrIgnoreArticle s t now) t' = findArticle s t' := by
  cases h : findArticle s t with
  | some r => simp [insertOrIgnoreArticle, h]
  | none =>
      simp only [insertOrIgnoreArticle, h]
      unfold findArticle
      simp only [List.find?_append]
      have hnone : List.find? (fun r => r.title == t')
          [(⟨s.nextId, t, false, now⟩ : ArticleRow)] = none := by
        simp [List.find?_cons, beq_eq_false_iff_ne, Ne.symm hne]
      rw [hnone, Option.or_none]

theorem insertOrIgnoreArticleProcessed_of_found {s : Store} {t : String} {r : ArticleRow}
    (p : Bool) (now : Nat) (h : findArticle s t = some r) :
    insertOrIgnoreArticleProcessed s t p now = s := by
  simp [insertOrIgnoreArticleProcessed, h]

theorem findArticle_insertOrIgnoreArticleProcessed_self (s : Store) (t : String)
    (p : Bool) (now : Nat) :
    findArticle (insertOrIgnoreArticleProcessed s t p now) t =
      some ((findArticle s t).getD ⟨s.nextId, t, p, now⟩) := by
  cases h : findArticle s t with
  | some r => simp [insertOrIgnoreArticleProcessed, h]
  | none =>
      simp only [insertOrIgnoreArticleProcessed, h, Option.getD_none]
      unfold findArticle at h ⊢
      simp [List.find?_append, h]

theorem findArticle_insertOrIgnoreArticleProcessed_ne {t' t : String} (s : Store)
    (p : Bool) (now : Nat) (hne : t' ≠ t) :
    findArticle (insertOrIgnoreArticleProcessed s t p now) t' = findArticle s t' := by
  cases h : findArticle s t with
  | some r => simp [insertOrIgnoreArticleProcessed, h]
  | none =>
      simp only [insertOrIgnoreArticleProcessed, h]
      unfold findArticle
      simp only [List.find?_append]
      have hnone : List.find? (fun r => r.title == t')
          [(⟨s.nextId, t, p, now⟩ : ArticleRow)] = none := by
        simp [List.find?_cons, beq_eq_false_iff_ne, Ne.symm hne]
      rw [hnone, Option.or_none]

/-- `find?` on the title commutes with any row map that preserves titles. -/
theorem find?_title_map {f : ArticleRow → ArticleRow}
    (hf : ∀ r, (f r).title = r.title) (l : List ArticleRow) (t : String) :
    (l.map f).find? (fun r => r.title == t) =
      (l.find? (fun r => r.title == t)).map f := by
  induction l with
  | nil => rfl
  | cons r l ih =>
      simp only [List.map_cons, List.find?_cons, hf]
      cases hr : (r.title == t) <;> simp [ih]

theorem markProcessedById_links (s : Store) (aid : Nat) :
    (markProcessedById s aid).links = s.links := rfl

theorem markProcessedById_nextId (s : Store) (aid : Nat) :
    (markProcessedById s aid).nextId = s.nextId := rfl

theorem findArticle_markProcessedById (s : Store) (aid : Nat) (t : String) :
    findArticle (markProcessedById s aid) t =
      (findArticle s t).map
        (fun r => if r.id == aid then { r with processed := true } else r) :=
  find?_title_map (fun r => by split <;> rfl) _ _

theorem markProcessedByTitle_links (s : Store) (t : String) :
    (markProcessedByTitle s t).links = s.links := rfl

theorem markProcessedByTitle_nextId (s : Store) (t : String) :
    (markProcessedByTitle s t).nextId = s.nextId := rfl

theorem findArticle_markProcessedByTitle (s : Store) (t t' : String) :
    findArticle (markProcessedByTitle s t) t' =
      (findArticle s t').map
        (fun r => if r.title == t && r.processed == false
                  then { r with processed := true } else r) :=
  find?_title_map (fun r => by split <;> rfl) _ _

theorem insertOrIgnoreLink_articles (s : Store) (fid : Nat) (toTitle : String) :
    (insertOrIgnoreLink s fid toTitle).articles = s.articles := by
  unfold insertOrIgnoreLink; split <;> rfl

theorem insertOrIgnoreLink_nextId (s : Store) (fid : Nat) (toTitle : String) :
    (insertOrIgnoreLink s fid toTitle).nextId = s.nextId := by
  unfold insertOrIgnoreLink; split <;> rfl

theorem findArticle_insertOrIgnoreLink (s : Store) (fid : Nat) (toTitle : String)
    (t : String) :
    findArticle (insertOrIgnoreLink s fid toTitle) t = findArticle s t := by
  unfold findArticle
  rw [insertOrIgnoreLink_articles]

theorem mem_links_insertOrIgnoreLink {l : LinkRow} (s : Store) (fid : Nat)
    (toTitle : String) :
    l ∈ (insertOrIgnoreLink s fid toTitle).links ↔
      l ∈ s.links ∨ l = ⟨fid, toTitle⟩ := by
  unfold insertOrIgnoreLink
  split
  · next h =>
      rw [List.any_eq_true] at h
      obtain ⟨x, hx, hxe⟩ := h
      have : x = ⟨fid, toTitle⟩ := by
        cases x
        simp only [Bool.and_eq_true, beq_iff_eq] at hxe
        simp [hxe.1, hxe.2]
      constructor
      · exact Or.inl
      · rintro (hl | rfl)
        · exact hl
        · exact this ▸ hx
  · simp

theorem mem_links_insertOrIgnoreLink_mono {l : LinkRow} {s : Store}
    (fid : Nat) (toTitle : String) (h : l ∈ s.links) :
    l ∈ (insertOrIgnoreLink s fid toTitle).links :=
  (mem_links_insertOrIgnoreLink s fid toTitle).mpr (Or.inl h)

theorem self_mem_links_insertOrIgnoreLink (s : Store) (fid : Nat) (toTitle : String) :
    (⟨fid, toTitle⟩ : LinkRow) ∈ (insertOrIgnoreLink s fid toTitle).links :=
  (mem_links_insertOrIgnoreLink s fid toTitle).mpr (Or.inr rfl)

/-! Folds of link inserts (the loop
`for link in links: INSERT OR IGNORE INTO links ...`). -/

theorem foldl_insertLinks_articles (ls : List String) (s : Store) (fid : Nat) :
    (ls.foldl (fun acc l => insertOrIgnoreLink acc fid l) s).articles = s.articles := by
  induction ls generalizing s with
  | nil => rfl
  | cons l ls ih => simp [List.foldl_cons, ih, insertOrIgnoreLink_articles]

theorem foldl_insertLinks_nextId (ls : List String) (s : Store) (fid : Nat) :
    (ls.foldl (fun acc l => insertOrIgnoreLink acc fid l) s).nextId = s.nextId := by
  induction ls generalizing s with
  | nil => rfl
  | cons l ls ih => simp [List.foldl_cons, ih, insertOrIgnoreLink_nextId]

theorem mem_links_foldl_insertLinks {lr : LinkRow} (ls : List String) (s : Store)
    (fid : Nat) :
    lr ∈ (ls.foldl (fun acc l => insertOrIgnoreLink acc fid l) s).links ↔
      lr ∈ s.links ∨ ∃ u ∈ ls, lr = ⟨fid, u⟩ := by
  induction ls generalizing s with
  | nil => simp
  | cons l ls ih =>
      rw [List.foldl_cons, ih, mem_links_insertOrIgnoreLink]
      constructor
      · rintro ((h | rfl) | ⟨u, hu, rfl⟩)
        · exact Or.inl h
        · exact Or.inr ⟨l, by simp⟩
        · exact Or.inr ⟨u, by simp [hu]⟩
      · rintro (h | ⟨u, hu, rfl⟩)
        · exact Or.inl (Or.inl h)
        · rcases List.mem_cons.mp hu with rfl | hu
          · exact Or.inl (Or.inr rfl)
          · exact Or.inr ⟨u, hu, rfl⟩

/-! ## Preservation of the store invariants -/

theorem WF_append_article {s : Store} (hWF : s.WF) {t : String} {p : Bool} {now : Nat}
    (habs : findArticle s t = none) :
    Store.WF
      { s with
        articles := s.articles ++ [⟨s.nextId, t, p, now⟩]
        nextId := s.nextId + 1 } := by
  obtain ⟨hchain, hlt, hnd, hlinks⟩ := hWF
  refine ⟨?_, ?_, ?_, hlinks⟩
  · rw [List.map_append, List.pairwise_append]
    refine ⟨hchain, by simp, ?_⟩
    intro x hx y hy
    simp only [List.map_cons, List.map_nil, List.mem_singleton] at hy
    subst hy
    obtain ⟨r, hr, hrid⟩ := List.mem_map.mp hx
    exact hrid ▸ hlt r hr
  · intro r hr
    rcases List.mem_append.mp hr with hr | hr
    · exact Nat.lt_succ_of_lt (hlt r hr)
    · simp only [List.mem_singleton] at hr
      subst hr
      exact Nat.lt_succ_self _
  · rw [List.map_append, List.nodup_append]
    refine ⟨hnd, by simp, ?_⟩
    intro x hx hy
    simp only [List.map_cons, List.map_nil, List.mem_singleton] at hy
    subst hy
    obtain ⟨r, hr, hrt⟩ := List.mem_map.mp hx
    have := List.find?_eq_none.mp habs r hr
    simp [hrt] at this

theorem WF_insertOrIgnoreArticle {s : Store} (hWF : s.WF) (t : String) (now : Nat) :
    (insertOrIgnoreArticle s t now).WF := by
  unfold insertOrIgnoreArticle
  cases h : findArticle s t with
  | some r => exact hWF
  | none => exact WF_append_article hWF h

theorem WF_insertOrIgnoreArticleProcessed {s : Store} (hWF : s.WF) (t : String)
    (p : Bool) (now : Nat) :
    (insertOrIgnoreArticleProcessed s t p now).WF := by
  unfold insertOrIgnoreArticleProcessed
  cases h : findArticle s t with
  | some r => exact hWF
  | none => exact WF_append_article hWF h

theorem WF_insertOrIgnoreLink {s : Store} (hWF : s.WF) (fid : Nat) (toTitle : String) :
    (insertOrIgnoreLink s fid toTitle).WF := by
  obtain ⟨hchain, hlt, hnd, hlinks⟩ := hWF
  unfold insertOrIgnoreLink
  split
  · exact ⟨hchain, hlt, hnd, hlinks⟩
  · next h =>
      refine ⟨hchain, hlt, hnd, ?_⟩
      rw [List.nodup_append]
      refine ⟨hlinks, by simp, ?_⟩
      intro x hx hy
      simp only [List.mem_singleton] at hy
      subst hy
      exact h (List.any_eq_true.mpr ⟨_, hx, by simp⟩)

/-- A row map that preserves `id` and `title` preserves well-formedness. -/
theorem WF_map_rows {s : Store} (hWF : s.WF) {f : ArticleRow → ArticleRow}
    (hid : ∀ r, (f r).id = r.id) (ht : ∀ r, (f r).title = r.title) :
    Store.WF { s with articles := s.articles.map f } := by
  obtain ⟨hchain, hlt, hnd, hlinks⟩ := hWF
  refine ⟨?_, ?_, ?_, hlinks⟩
  · have : (s.articles.map f).map (·.id) = s.articles.map (·.id) := by
      rw [List.map_map]
      exact List.map_congr_left (fun r _ => hid r)
    rw [this]; exact hchain
  · intro r hr
    obtain ⟨r0, hr0, rfl⟩ := List.mem_map.mp hr
    rw [hid]
    exact hlt r0 hr0
  · have : (s.articles.map f).map (·.title) = s.articles.map (·.title) := by
      rw [List.map_map]
      exact List.map_congr_left (fun r _ => ht r)
    rw [this]; exact hnd

theorem WF_markProcessedById {s : Store} (hWF : s.WF) (aid : Nat) :
    (markProcessedById s aid).WF :=
  WF_map_rows hWF (fun r => by split <;> rfl) (fun r => by split <;> rfl)

theorem WF_markProcessedByTitle {s : Store} (hWF : s.WF) (t : String) :
    (markProcessedByTitle s t).WF :=
  WF_map_rows hWF (fun r => by split <;> rfl) (fun r => by split <;> rfl)

theorem WF_foldl_insertLinks {s : Store} (hWF : s.WF) (ls : List String) (fid : Nat) :
    (ls.foldl (fun acc l => insertOrIgnoreLink acc fid l) s).WF := by
  induction ls generalizing s with
  | nil => exact hWF
  | cons l ls ih => exact ih (WF_insertOrIgnoreLink hWF fid l)

/-- With UNIQUE titles, the row found by title for a member row is that row. -/
theorem find?_eq_of_mem_nodup {l : List ArticleRow}
    (hnd : (l.map (·.title)).Nodup) {r : ArticleRow} (hr : r ∈ l) :
    l.find? (fun x => x.title == r.title) = some r := by
  induction l with
  | nil => exact absurd hr (List.not_mem_nil r)
  | cons a l ih =>
      simp only [List.map_cons, List.nodup_cons] at hnd
      rcases List.mem_cons.mp hr with rfl | hr
      · exact List.find?_cons_of_pos _ (by simp)
      · have hne : a.title ≠ r.title := by
          intro he
          exact hnd.1 (he ▸ List.mem_map.mpr ⟨r, hr, rfl⟩)
        rw [List.find?_cons_of_neg _ (by simpa using hne)]
        exact ih hnd.2 hr

theorem findArticle_of_mem_nodup {s : Store} (hnd : (s.articles.map (·.title)).Nodup)
    {r : ArticleRow} (hr : r ∈ s.articles) :
    findArticle s r.title = some r :=
  find?_eq_of_mem_nodup hnd hr

/-! ## The two outcomes of `save_article_links` -/

/-- A failure-free `save_article_links` commits: insert-or-ignore the article,
insert-or-ignore each link from the read-back row id, set `processed = TRUE`
on that id. -/
theorem save_article_links_success (s : Store) (t : String) (links : List String)
    (now : Nat) :
    save_article_links s t links now none =
      markProcessedById
        (links.foldl (fun acc l => insertOrIgnoreLink acc (savedRow s t now).id l)
          (insertOrIgnoreArticle s t now))
        (savedRow s t now).id := by
  have hview : ((Conn.connect s).exec (.insertArticle t now)).view =
      insertOrIgnoreArticle s t now := rfl
  simp only [save_article_links, hview, findArticle_insertOrIgnoreArticle_self]
  rw [commit_foldl_exec]
  show (((Conn.connect s).exec (.insertArticle t now)).pending ++ _).foldl applyWrite s = _
  simp only [Conn.connect, Conn.exec, List.nil_append, List.cons_append,
    List.foldl_cons, List.foldl_append, List.foldl_map, List.foldl_nil]
  rfl

/-- A `save_article_links` transaction hit by an exception (injected after `k`
post-lookup writes) rolls back to the original store. -/
theorem save_article_links_failure (s : Store) (t : String) (links : List String)
    (now k : Nat) :
    save_article_links s t links now (some k) = s := by
  simp only [save_article_links]
  cases h : findArticle ((Conn.connect s).exec (.insertArticle t now)).view t with
  | none => rfl
  | some row => exact rollback_foldl_exec _ _ _ rfl

/-- After a successful save, the read-back row is the one found by title, and
it is marked processed. -/
theorem processedOf_save_success (s : Store) (t : String) (links : List String)
    (now : Nat) :
    processedOf (save_article_links s t links now none) t = some true := by
  rw [save_article_links_success]
  unfold processedOf
  rw [findArticle_markProcessedById]
  have hfind : findArticle
      (links.foldl (fun acc l => insertOrIgnoreLink acc (savedRow s t now).id l)
        (insertOrIgnoreArticle s t now)) t = some (savedRow s t now) := by
    unfold findArticle
    rw [foldl_insertLinks_articles]
    have := findArticle_insertOrIgnoreArticle_self s t now
    unfold findArticle at this
    rw [this]
    rfl
  rw [hfind]
  simp

/-- After a successful save, the `last_updated` of a pre-existing row is
whatever it already was: the UPDATE statement does not touch it. -/
theorem lastUpdatedOf_save_success_existing {s : Store} {t : String} {r : ArticleRow}
    (links : List String) (now : Nat) (hr : findArticle s t = some r) :
    lastUpdatedOf (save_article_links s t links now none) t = some r.lastUpdated := by
  rw [save_article_links_success]
  unfold lastUpdatedOf
  rw [findArticle_markProcessedById]
  have hrow : savedRow s t now = r := by simp [savedRow, hr]
  have hfind : findArticle
      (links.foldl (fun acc l => insertOrIgnoreLink acc (savedRow s t now).id l)
        (insertOrIgnoreArticle s t now)) t = some (savedRow s t now) := by
    unfold findArticle
    rw [foldl_insertLinks_articles]
    have := findArticle_insertOrIgnoreArticle_self s t now
    unfold findArticle at this
    rw [this]
    rfl
  rw [hfind, hrow]
  simp

/-- After a successful save of `t`, no row titled `t` is unprocessed, so `t`
is not in any later unprocessed batch (UNIQUE titles). -/
theorem not_mem_next_unprocessed_of_save {s : Store} (hWF : s.WF) (t : String)
    (links : List String) (now b : Nat) :
    t ∉ get_next_unprocessed_articles (save_article_links s t links now none) b := by
  intro hmem
  rw [save_article_links_success] at hmem
  unfold get_next_unprocessed_articles at hmem
  obtain ⟨r, hrtake, hrt⟩ := List.mem_map.mp hmem
  have hrfil := List.mem_of_mem_take hrtake
  have hrproc : r.processed = false := by
    simpa using (List.mem_filter.mp hrfil).2
  have hrsort := (List.mem_filter.mp hrfil).1
  have hrmem : r ∈ (markProcessedById
      (links.foldl (fun acc l => insertOrIgnoreLink acc (savedRow s t now).id l)
        (insertOrIgnoreArticle s t now))
      (savedRow s t now).id).articles :=
    (List.perm_insertionSort _ _).mem_iff.mp hrsort
  -- the articles of the saved store are the mapped articles of the inserted store
  set s1 := insertOrIgnoreArticle s t now with hs1
  have harts : (markProcessedById
      (links.foldl (fun acc l => insertOrIgnoreLink acc (savedRow s t now).id l) s1)
      (savedRow s t now).id).articles =
      s1.articles.map (fun r =>
        if r.id == (savedRow s t now).id then { r with processed := true } else r) := by
    unfold markProcessedById
    rw [foldl_insertLinks_articles]
  rw [harts] at hrmem
  obtain ⟨r0, hr0, hr0e⟩ := List.mem_map.mp hrmem
  have hr0t : r0.title = t := by
    have : r.title = r0.title := by
      rw [← hr0e]; split <;> rfl
    rw [hrt] at this; exact this.symm
  -- with UNIQUE titles in s1, r0 is exactly the read-back row
  have hWF1 : s1.WF := WF_insertOrIgnoreArticle hWF t now
  have hfind : findArticle s1 t = some r0 := by
    have := findArticle_of_mem_nodup hWF1.2.2.1 hr0
    rwa [hr0t] at this
  have hsaved : findArticle s1 t = some (savedRow s t now) := by
    rw [hs1, findArticle_insertOrIgnoreArticle_self]; rfl
  have hr0saved : r0 = savedRow s t now := by
    have := hfind.symm.trans hsaved
    exact Option.some.inj this
  rw [← hr0e, hr0saved] at hrproc
  simp at hrproc

/-! ## Lemmas on one step of the merge loop -/

theorem insertOrIgnoreLink_of_mem {s : Store} {fid : Nat} {toTitle : String}
    (h : (⟨fid, toTitle⟩ : LinkRow) ∈ s.links) :
    insertOrIgnoreLink s fid toTitle = s := by
  unfold insertOrIgnoreLink
  rw [if_pos (List.any_eq_true.mpr ⟨_, h, by simp⟩)]

/-- The link-copying fold of the merger, rephrased over the target titles. -/
theorem merge_link_fold_eq (rows : List LinkRow) (s : Store) (fid : Nat) :
    rows.foldl (fun acc l => insertOrIgnoreLink acc fid l.toArticleTitle) s =
      (rows.map (·.toArticleTitle)).foldl
        (fun acc u => insertOrIgnoreLink acc fid u) s :=
  (List.foldl_map _ _ _ _).symm

theorem mem_linkTitlesFrom {s : Store} {t u : String} :
    u ∈ linkTitlesFrom s t ↔
      ∃ r, findArticle s t = some r ∧ (⟨r.id, u⟩ : LinkRow) ∈ s.links := by
  unfold linkTitlesFrom
  cases h : findArticle s t with
  | none => simp [h]
  | some r =>
      simp only [h, Option.some.injEq]
      constructor
      · intro hu
        obtain ⟨l, hl, hlu⟩ := List.mem_map.mp hu
        obtain ⟨hlmem, hlid⟩ := List.mem_filter.mp hl
        refine ⟨r, rfl, ?_⟩
        have : l = ⟨r.id, u⟩ := by
          cases l
          simp only [beq_iff_eq] at hlid
          simp_all
        exact this ▸ hlmem
      · rintro ⟨r', rfl, hmem⟩
        exact List.mem_map.mpr ⟨⟨r.id, u⟩, List.mem_filter.mpr ⟨hmem, by simp⟩, rfl⟩

theorem findArticle_insertOrIgnoreArticleProcessed_of_found {out : Store} {t : String}
    {r : ArticleRow} (h : findArticle out t = some r) (t' : String) (p : Bool)
    (now : Nat) :
    findArticle (insertOrIgnoreArticleProcessed out t' p now) t = some r := by
  by_cases he : t = t'
  · subst he
    rw [findArticle_insertOrIgnoreArticleProcessed_self, h]
    rfl
  · rw [findArticle_insertOrIgnoreArticleProcessed_ne out p now he]
    exact h

theorem insertOrIgnoreArticleProcessed_links (s : Store) (t : String) (p : Bool)
    (now : Nat) :
    (insertOrIgnoreArticleProcessed s t p now).links = s.links := by
  unfold insertOrIgnoreArticleProcessed
  cases findArticle s t <;> rfl

theorem mergeArticleFlag_links (out : Store) (a : ArticleRow) (now : Nat) :
    (mergeArticleFlag out a now).links = out.links := by
  simp only [mergeArticleFlag]
  split
  · rw [markProcessedByTitle_links, insertOrIgnoreArticleProcessed_links]
  · rw [insertOrIgnoreArticleProcessed_links]

theorem mergeArticleFlag_WF {out : Store} (hWF : out.WF) (a : ArticleRow) (now : Nat) :
    (mergeArticleFlag out a now).WF := by
  unfold mergeArticleFlag
  split
  · exact WF_markProcessedByTitle
      (WF_insertOrIgnoreArticleProcessed hWF a.title a.processed now) a.title
  · exact WF_insertOrIgnoreArticleProcessed hWF a.title a.processed now

/-- The flag step on a row already found keeps its id, title and timestamp,
and ORs the processed flag with (input processed AND same title). -/
theorem mergeArticleFlag_found {out : Store} {t : String} {r : ArticleRow}
    (a : ArticleRow) (now : Nat) (h : findArticle out t = some r) :
    ∃ r', findArticle (mergeArticleFlag out a now) t = some r' ∧
      r'.id = r.id ∧ r'.title = r.title ∧ r'.lastUpdated = r.lastUpdated ∧
      r'.processed = (r.processed || (a.processed && (r.title == a.title))) := by
  have h1 : findArticle (insertOrIgnoreArticleProcessed out a.title a.processed now) t =
      some r := findArticle_insertOrIgnoreArticleProcessed_of_found h a.title a.processed now
  simp only [mergeArticleFlag]
  split
  · next hp =>
      rw [findArticle_markProcessedByTitle, h1]
      refine ⟨_, rfl, ?_, ?_, ?_, ?_⟩ <;> beta_reduce
      · split <;> rfl
      · split <;> rfl
      · split <;> rfl
      · rw [hp]
        cases hrt : (r.title == a.title) <;> cases hrp : r.processed <;>
          simp [hrt, hrp]
  · next hp =>
      have hp' : a.processed = false := by
        revert hp; cases a.processed <;> simp
      exact ⟨r, h1, rfl, rfl, rfl, by rw [hp']; simp⟩

/-- The flag step guarantees a row for the input title, processed whenever the
input row is. -/
theorem mergeArticleFlag_self (out : Store) (a : ArticleRow) (now : Nat) :
    ∃ r', findArticle (mergeArticleFlag out a now) a.title = some r' ∧
      (a.processed = true → r'.processed = true) := by
  cases h : findArticle out a.title with
  | some r =>
      obtain ⟨r', hr', _, _, _, hp⟩ := mergeArticleFlag_found a now h
      refine ⟨r', hr', fun hap => ?_⟩
      rw [hp, hap, findArticle_title h]
      simp
  | none =>
      have h1 : findArticle (insertOrIgnoreArticleProcessed out a.title a.processed now)
          a.title = some ⟨out.nextId, a.title, a.processed, now⟩ := by
        rw [findArticle_insertOrIgnoreArticleProcessed_self, h]
        rfl
      simp only [mergeArticleFlag]
      split
      · next hp =>
          rw [findArticle_markProcessedByTitle, h1]
          refine ⟨_, rfl, fun _ => ?_⟩
          simp [hp]
      · next hp => exact ⟨_, h1, fun hap => absurd hap hp⟩

/-- If the title was absent, the only row the flag step can deliver for it is
the freshly inserted one, carrying the next AUTOINCREMENT id. -/
theorem mergeArticleFlag_new_id {out : Store} {t : String} {r' : ArticleRow}
    (a : ArticleRow) (now : Nat) (habs : findArticle out t = none)
    (h : findArticle (mergeArticleFlag out a now) t = some r') :
    r'.id = out.nextId := by
  by_cases he : t = a.title
  · subst he
    have h1 : findArticle (insertOrIgnoreArticleProcessed out a.title a.processed now)
        a.title = some ⟨out.nextId, a.title, a.processed, now⟩ := by
      rw [findArticle_insertOrIgnoreArticleProcessed_self, habs]
      rfl
    simp only [mergeArticleFlag] at h
    split at h
    · rw [findArticle_markProcessedByTitle, h1] at h
      rw [← Option.some.inj h]
      beta_reduce
      split <;> rfl
    · rw [h1] at h
      rw [← Option.some.inj h]
  · exfalso
    simp only [mergeArticleFlag] at h
    split at h
    · rw [findArticle_markProcessedByTitle,
        findArticle_insertOrIgnoreArticleProcessed_ne out a.processed now he, habs] at h
      exact Option.noConfusion h
    · rw [findArticle_insertOrIgnoreArticleProcessed_ne out a.processed now he, habs] at h
      exact Option.noConfusion h

theorem LinksRef_insertOrIgnoreArticleProcessed {s : Store} (hRef : s.LinksRef)
    (t : String) (p : Bool) (now : Nat) :
    (insertOrIgnoreArticleProcessed s t p now).LinksRef := by
  intro l hl
  rw [insertOrIgnoreArticleProcessed_links] at hl
  obtain ⟨r, hr, hid⟩ := hRef l hl
  unfold insertOrIgnoreArticleProcessed
  cases findArticle s t with
  | some _ => exact ⟨r, hr, hid⟩
  | none => exact ⟨r, List.mem_append.mpr (Or.inl hr), hid⟩

theorem LinksRef_markProcessedByTitle {s : Store} (hRef : s.LinksRef) (t : String) :
    (markProcessedByTitle s t).LinksRef := by
  intro l hl
  rw [markProcessedByTitle_links] at hl
  obtain ⟨r, hr, hid⟩ := hRef l hl
  refine ⟨_, List.mem_map.mpr ⟨r, hr, rfl⟩, ?_⟩
  rw [hid]
  split <;> rfl

theorem mergeArticleFlag_LinksRef {out : Store} (hRef : out.LinksRef)
    (a : ArticleRow) (now : Nat) :
    (mergeArticleFlag out a now).LinksRef := by
  simp only [mergeArticleFlag]
  split
  · exact LinksRef_markProcessedByTitle
      (LinksRef_insertOrIgnoreArticleProcessed hRef a.title a.processed now) a.title
  · exact LinksRef_insertOrIgnoreArticleProcessed hRef a.title a.processed now

theorem mem_map_filter_links (inp : Store) (fid : Nat) (u : String) :
    u ∈ (inp.links.filter (fun x => x.fromArticleId == fid)).map (·.toArticleTitle) ↔
      (⟨fid, u⟩ : LinkRow) ∈ inp.links := by
  constructor
  · intro h
    obtain ⟨l0, hl0, hl0u⟩ := List.mem_map.mp h
    obtain ⟨hl0mem, hl0id⟩ := List.mem_filter.mp hl0
    have : l0 = ⟨fid, u⟩ := by
      cases l0
      simp only [beq_iff_eq] at hl0id
      simp_all
    exact this ▸ hl0mem
  · intro h
    exact List.mem_map.mpr ⟨⟨fid, u⟩, List.mem_filter.mpr ⟨h, by simp⟩, rfl⟩

/-- Looking up any title after a whole merge step sees exactly the state after
the flag half: the link-copying half never touches `articles`. -/
theorem findArticle_mergeArticle (inp out : Store) (a : ArticleRow) (now : Nat)
    (t : String) :
    findArticle (mergeArticle inp out a now) t =
      findArticle (mergeArticleFlag out a now) t := by
  simp only [mergeArticle]
  cases h1 : findArticle inp a.title with
  | none => cases h2 : findArticle (mergeArticleFlag out a now) a.title <;> rfl
  | some inRow =>
      cases h2 : findArticle (mergeArticleFlag out a now) a.title with
      | none => rfl
      | some outRow =>
          show findArticle ((inp.links.filter _).foldl _ _) t = _
          unfold findArticle
          rw [merge_link_fold_eq, foldl_insertLinks_articles]

/-- The links after a merge step: the old links plus, when both ids resolve,
the input links of the input-side row re-attached to the output-side id. -/
theorem mem_links_mergeArticle {inp out : Store} {a : ArticleRow} {now : Nat}
    {l : LinkRow} :
    l ∈ (mergeArticle inp out a now).links ↔
      l ∈ out.links ∨
      ∃ inRow outRow u, findArticle inp a.title = some inRow ∧
        findArticle (mergeArticleFlag out a now) a.title = some outRow ∧
        l = ⟨outRow.id, u⟩ ∧ (⟨inRow.id, u⟩ : LinkRow) ∈ inp.links := by
  simp only [mergeArticle]
  cases h1 : findArticle inp a.title with
  | none =>
      cases h2 : findArticle (mergeArticleFlag out a now) a.title <;>
        simp [mergeArticleFlag_links, h1]
  | some inRow =>
      cases h2 : findArticle (mergeArticleFlag out a now) a.title with
      | none =>
          obtain ⟨r', hr', _⟩ := mergeArticleFlag_self out a now
          rw [h2] at hr'
          exact Option.noConfusion hr'
      | some outRow =>
          show l ∈ ((inp.links.filter (fun l => l.fromArticleId == inRow.id)).foldl
            (fun acc l => insertOrIgnoreLink acc outRow.id l.toArticleTitle)
            (mergeArticleFlag out a now)).links ↔ _
          rw [merge_link_fold_eq, mem_links_foldl_insertLinks,
            mergeArticleFlag_links]
          constructor
          · rintro (h | ⟨u, hu, rfl⟩)
            · exact Or.inl h
            · exact Or.inr ⟨inRow, outRow, u, rfl, rfl,
                rfl, (mem_map_filter_links inp inRow.id u).mp hu⟩
          · rintro (h | ⟨inRow', outRow', u, hin', hout', rfl, hl⟩)
            · exact Or.inl h
            · have hi : inRow' = inRow := (Option.some.inj hin').symm
              have ho : outRow' = outRow := (Option.some.inj hout').symm
              subst hi
              subst ho
              exact Or.inr ⟨u, (mem_map_filter_links inp inRow'.id u).mpr hl, rfl⟩

theorem mem_links_mergeArticle_mono {inp out : Store} {a : ArticleRow} {now : Nat}
    {l : LinkRow} (h : l ∈ out.links) :
    l ∈ (mergeArticle inp out a now).links :=
  mem_links_mergeArticle.mpr (Or.inl h)

theorem WF_mergeArticle {out : Store} (hWF : out.WF) (inp : Store) (a : ArticleRow)
    (now : Nat) :
    (mergeArticle inp out a now).WF := by
  simp only [mergeArticle]
  cases h1 : findArticle inp a.title with
  | none =>
      cases h2 : findArticle (mergeArticleFlag out a now) a.title <;>
        exact mergeArticleFlag_WF hWF a now
  | some inRow =>
      cases h2 : findArticle (mergeArticleFlag out a now) a.title with
      | none => exact mergeArticleFlag_WF hWF a now
      | some outRow =>
          show ((inp.links.filter (fun l => l.fromArticleId == inRow.id)).foldl
            (fun acc l => insertOrIgnoreLink acc outRow.id l.toArticleTitle)
            (mergeArticleFlag out a now)).WF
          rw [merge_link_fold_eq]
          exact WF_foldl_insertLinks (mergeArticleFlag_WF hWF a now) _ _

theorem LinksRef_foldl_insertLinks {s : Store} (hRef : s.LinksRef) {fid : Nat}
    (hfid : ∃ r ∈ s.articles, fid = r.id) (ls : List String) :
    (ls.foldl (fun acc l => insertOrIgnoreLink acc fid l) s).LinksRef := by
  induction ls generalizing s with
  | nil => exact hRef
  | cons l ls ih =>
      rw [List.foldl_cons]
      refine ih ?_ ?_
      · intro l' hl'
        rcases (mem_links_insertOrIgnoreLink s fid l).mp hl' with h | rfl
        · obtain ⟨r, hr, hid⟩ := hRef l' h
          exact ⟨r, by rw [insertOrIgnoreLink_articles]; exact hr, hid⟩
        · obtain ⟨r, hr, hid⟩ := hfid
          exact ⟨r, by rw [insertOrIgnoreLink_articles]; exact hr, hid⟩
      · obtain ⟨r, hr, hid⟩ := hfid
        exact ⟨r, by rw [insertOrIgnoreLink_articles]; exact hr, hid⟩

theorem LinksRef_mergeArticle {out : Store} (hRef : out.LinksRef) (inp : Store)
    (a : ArticleRow) (now : Nat) :
    (mergeArticle inp out a now).LinksRef := by
  simp only [mergeArticle]
  cases h1 : findArticle inp a.title with
  | none =>
      cases h2 : findArticle (mergeArticleFlag out a now) a.title <;>
        exact mergeArticleFlag_LinksRef hRef a now
  | some inRow =>
      cases h2 : findArticle (mergeArticleFlag out a now) a.title with
      | none => exact mergeArticleFlag_LinksRef hRef a now
      | some outRow =>
          show ((inp.links.filter (fun l => l.fromArticleId == inRow.id)).foldl
            (fun acc l => insertOrIgnoreLink acc outRow.id l.toArticleTitle)
            (mergeArticleFlag out a now)).LinksRef
          rw [merge_link_fold_eq]
          exact LinksRef_foldl_insertLinks (mergeArticleFlag_LinksRef hRef a now)
            ⟨outRow, findArticle_mem h2, rfl⟩ _

/-- One merge step carries every link of the input row over to the output
row id it resolved, and ORs the processed flag. -/
theorem mergeArticle_complete {inp out : Store} {a : ArticleRow} {now : Nat}
    {inRow : ArticleRow} (hin : findArticle inp a.title = some inRow) :
    ∃ r', findArticle (mergeArticle inp out a now) a.title = some r' ∧
      (a.processed = true → r'.processed = true) ∧
      ∀ u, (⟨inRow.id, u⟩ : LinkRow) ∈ inp.links →
        (⟨r'.id, u⟩ : LinkRow) ∈ (mergeArticle inp out a now).links := by
  obtain ⟨r', hr', hproc⟩ := mergeArticleFlag_self out a now
  refine ⟨r', ?_, hproc, ?_⟩
  · rw [findArticle_mergeArticle]
    exact hr'
  · intro u hu
    exact mem_links_mergeArticle.mpr (Or.inr ⟨inRow, r', u, hin, hr', rfl, hu⟩)


/-- Soundness of one merge step for the title-level link view: any link
readable from `t` afterwards was already readable from `t` in the output, or
is an input-side link of `t`. -/
theorem linkTitlesFrom_mergeArticle_sound {inp out : Store} {a : ArticleRow}
    {now : Nat} {t u : String} (hWF : out.WF) (hRef : out.LinksRef)
    (hmem : u ∈ linkTitlesFrom (mergeArticle inp out a now) t) :
    u ∈ linkTitlesFrom out t ∨ u ∈ linkTitlesFrom inp t := by
  rw [mem_linkTitlesFrom] at hmem
  obtain ⟨r', hfind', hlink'⟩ := hmem
  rw [findArticle_mergeArticle] at hfind'
  rcases mem_links_mergeArticle.mp hlink' with hold |
    ⟨inRow, outRow, u0, hin, hout, heq, hlink⟩
  · cases h0 : findArticle out t with
    | some r =>
        obtain ⟨r'', hr'', hid, _, _, _⟩ := mergeArticleFlag_found a now h0
        have hrr : r'' = r' := Option.some.inj (hr''.symm.trans hfind')
        left
        rw [mem_linkTitlesFrom]
        refine ⟨r, h0, ?_⟩
        rw [← hid, hrr]
        exact hold
    | none =>
        exfalso
        have hid := mergeArticleFlag_new_id a now h0 hfind'
        obtain ⟨r0, hr0, hr0id⟩ := hRef _ hold
        have hlt := hWF.2.1 r0 hr0
        simp only at hr0id
        omega
  · obtain ⟨hfid, hu0⟩ := LinkRow.mk.inj heq
    by_cases he : t = a.title
    · subst he
      right
      rw [mem_linkTitlesFrom]
      refine ⟨inRow, hin, ?_⟩
      rw [hu0]
      exact hlink
    · exfalso
      have hWFf := mergeArticleFlag_WF hWF a now
      have hidnodup : ((mergeArticleFlag out a now).articles.map (·.id)).Nodup :=
        hWFf.1.imp Nat.ne_of_lt
      have hro : r' = outRow :=
        List.inj_on_of_nodup_map hidnodup (findArticle_mem hfind')
          (findArticle_mem hout) hfid
      have ht : r'.title = t := findArticle_title hfind'
      have ha : outRow.title = a.title := findArticle_title hout
      rw [hro, ha] at ht
      exact he ht.symm

/-! ## Lemmas on the whole merge fold (`mergeStore`) -/

theorem foldl_merge_stable {inp : Store} {now : Nat} (as : List ArticleRow)
    {out : Store} {t : String} {r : ArticleRow} (h : findArticle out t = some r) :
    ∃ r', findArticle (as.foldl (fun acc b => mergeArticle inp acc b now) out) t =
        some r' ∧
      r'.id = r.id ∧ r'.title = r.title ∧ r'.lastUpdated = r.lastUpdated ∧
      (r.processed = true → r'.processed = true) := by
  induction as generalizing out r with
  | nil => exact ⟨r, h, rfl, rfl, rfl, fun hp => hp⟩
  | cons b bs ih =>
      rw [List.foldl_cons]
      obtain ⟨r1, hr1f, hid1, ht1, hl1, hp1⟩ := mergeArticleFlag_found b now h
      have hr1 : findArticle (mergeArticle inp out b now) t = some r1 := by
        rw [findArticle_mergeArticle]
        exact hr1f
      obtain ⟨r', hr', hid', ht', hl', hp'⟩ := ih hr1
      refine ⟨r', hr', by rw [hid', hid1], by rw [ht', ht1], by rw [hl', hl1],
        fun hp => hp' ?_⟩
      rw [hp1, hp]
      simp

theorem foldl_merge_links_mono {inp : Store} {now : Nat} (as : List ArticleRow)
    {out : Store} {l : LinkRow} (h : l ∈ out.links) :
    l ∈ (as.foldl (fun acc b => mergeArticle inp acc b now) out).links := by
  induction as generalizing out with
  | nil => exact h
  | cons b bs ih =>
      rw [List.foldl_cons]
      exact ih (mem_links_mergeArticle_mono h)

theorem foldl_merge_WF {inp : Store} {now : Nat} (as : List ArticleRow)
    {out : Store} (hWF : out.WF) :
    (as.foldl (fun acc b => mergeArticle inp acc b now) out).WF := by
  induction as generalizing out with
  | nil => exact hWF
  | cons b bs ih =>
      rw [List.foldl_cons]
      exact ih (WF_mergeArticle hWF inp b now)

theorem foldl_merge_LinksRef {inp : Store} {now : Nat} (as : List ArticleRow)
    {out : Store} (hRef : out.LinksRef) :
    (as.foldl (fun acc b => mergeArticle inp acc b now) out).LinksRef := by
  induction as generalizing out with
  | nil => exact hRef
  | cons b bs ih =>
      rw [List.foldl_cons]
      exact ih (LinksRef_mergeArticle hRef inp b now)

theorem foldl_merge_complete {inp : Store} {now : Nat} {a inRow : ArticleRow}
    (hin : findArticle inp a.title = some inRow) (as : List ArticleRow)
    (ha : a ∈ as) (out : Store) :
    ∃ r', findArticle (as.foldl (fun acc b => mergeArticle inp acc b now) out)
        a.title = some r' ∧
      (a.processed = true → r'.processed = true) ∧
      ∀ u, (⟨inRow.id, u⟩ : LinkRow) ∈ inp.links →
        (⟨r'.id, u⟩ : LinkRow) ∈
          (as.foldl (fun acc b => mergeArticle inp acc b now) out).links := by
  induction as generalizing out with
  | nil => exact absurd ha (List.not_mem_nil a)
  | cons b bs ih =>
      rw [List.foldl_cons]
      rcases List.mem_cons.mp ha with rfl | hmem
      · obtain ⟨r0, hr0, hp0, hl0⟩ := @mergeArticle_complete inp out a now inRow hin
        obtain ⟨r', hr', hid', _, _, hp'⟩ := foldl_merge_stable bs hr0
        refine ⟨r', hr', fun hp => hp' (hp0 hp), fun u hu => ?_⟩
        rw [hid']
        exact foldl_merge_links_mono bs (hl0 u hu)
      · exact ih hmem (mergeArticle inp out b now)

theorem foldl_merge_sound {inp : Store} {now : Nat} (as : List ArticleRow)
    {out : Store} {t u : String} (hWF : out.WF) (hRef : out.LinksRef)
    (hmem : u ∈ linkTitlesFrom
      (as.foldl (fun acc b => mergeArticle inp acc b now) out) t) :
    u ∈ linkTitlesFrom out t ∨ u ∈ linkTitlesFrom inp t := by
  induction as generalizing out with
  | nil => exact Or.inl hmem
  | cons b bs ih =>
      rw [List.foldl_cons] at hmem
      rcases ih (WF_mergeArticle hWF inp b now) (LinksRef_mergeArticle hRef inp b now)
        hmem with h | h
      · exact linkTitlesFrom_mergeArticle_sound hWF hRef h
      · exact Or.inr h

theorem WF_mergeStore {out : Store} (hWF : out.WF) (inp : Store) (now : Nat) :
    (mergeStore inp out now).WF :=
  foldl_merge_WF inp.articles hWF

theorem LinksRef_mergeStore {out : Store} (hRef : out.LinksRef) (inp : Store)
    (now : Nat) :
    (mergeStore inp out now).LinksRef :=
  foldl_merge_LinksRef inp.articles hRef

theorem linkTitlesFrom_mergeStore_mono {inp out : Store} {now : Nat} {t u : String}
    (h : u ∈ linkTitlesFrom out t) :
    u ∈ linkTitlesFrom (mergeStore inp out now) t := by
  rw [mem_linkTitlesFrom] at h ⊢
  obtain ⟨r, hr, hl⟩ := h
  obtain ⟨r', hr', hid, _, _, _⟩ := foldl_merge_stable inp.articles hr
  refine ⟨r', hr', ?_⟩
  rw [hid]
  exact foldl_merge_links_mono inp.articles hl

theorem linkTitlesFrom_mergeStore_inp {inp out : Store} {now : Nat} {t u : String}
    {rt : ArticleRow} (hrt : findArticle inp t = some rt)
    (h : u ∈ linkTitlesFrom inp t) :
    u ∈ linkTitlesFrom (mergeStore inp out now) t := by
  rw [mem_linkTitlesFrom] at h
  obtain ⟨r, hr, hl⟩ := h
  have hre : r = rt := Option.some.inj (hr.symm.trans hrt)
  subst hre
  have htitle : r.title = t := findArticle_title hr
  have hin : findArticle inp r.title = some r := by
    rw [htitle]
    exact hr
  obtain ⟨r', hr', _, hlinks⟩ :=
    foldl_merge_complete hin inp.articles (findArticle_mem hr) out
  rw [mem_linkTitlesFrom]
  refine ⟨r', ?_, hlinks u hl⟩
  rw [← htitle]
  exact hr'

theorem processedOf_mergeStore_inp {inp out : Store} {now : Nat} {t : String}
    {rt : ArticleRow} (hrt : findArticle inp t = some rt)
    (hp : rt.processed = true) :
    processedOf (mergeStore inp out now) t = some true := by
  have htitle : rt.title = t := findArticle_title hrt
  have hin : findArticle inp rt.title = some rt := by
    rw [htitle]
    exact hrt
  obtain ⟨r', hr', hp', _⟩ :=
    @foldl_merge_complete inp now rt rt hin inp.articles (findArticle_mem hrt) out
  unfold processedOf mergeStore
  rw [← htitle, hr']
  simp [hp' hp]

theorem processedOf_mergeStore_mono {inp out : Store} {now : Nat} {t : String}
    (hp : processedOf out t = some true) :
    processedOf (mergeStore inp out now) t = some true := by
  unfold processedOf at hp ⊢
  cases h : findArticle out t with
  | none => rw [h] at hp; exact Option.noConfusion hp
  | some r =>
      rw [h] at hp
      have hrp : r.processed = true := Option.some.inj hp
      obtain ⟨r', hr', _, _, _, hp'⟩ :=
        @foldl_merge_stable inp now inp.articles out t r h
      unfold mergeStore
      rw [hr']
      simp [hp' hrp]

theorem linkTitlesFrom_mergeStore_sound {inp out : Store} {now : Nat} {t u : String}
    (hWF : out.WF) (hRef : out.LinksRef)
    (h : u ∈ linkTitlesFrom (mergeStore inp out now) t) :
    u ∈ linkTitlesFrom out t ∨ u ∈ linkTitlesFrom inp t :=
  foldl_merge_sound inp.articles hWF hRef h

/-! ## Idempotence of re-merging an already merged input -/

theorem map_eq_self_of_forall {α : Type} {f : α → α} {l : List α}
    (h : ∀ x ∈ l, f x = x) : l.map f = l := by
  induction l with
  | nil => rfl
  | cons x xs ih =>
      rw [List.map_cons, h x (List.mem_cons_self x xs),
        ih (fun y hy => h y (List.mem_cons_of_mem x hy))]

theorem markProcessedByTitle_eq_self {s : Store} {t : String}
    (h : ∀ row ∈ s.articles, (row.title == t && row.processed == false) = false) :
    markProcessedByTitle s t = s := by
  unfold markProcessedByTitle
  have harts : s.articles.map (fun r =>
      if r.title == t && r.processed == false
      then { r with processed := true } else r) = s.articles := by
    apply map_eq_self_of_forall
    intro x hx
    rw [h x hx]
    simp
  rw [harts]

theorem foldl_eq_self_of_forall {α : Type} {f : Store → α → Store} {s : Store}
    {l : List α} (h : ∀ x ∈ l, f s x = s) : l.foldl f s = s := by
  induction l with
  | nil => rfl
  | cons x xs ih =>
      rw [List.foldl_cons, h x (List.mem_cons_self x xs)]
      exact ih (fun y hy => h y (List.mem_cons_of_mem x hy))

/-- Re-merging an input whose rows and links are already all present (because
the very same input was merged before) changes nothing: every INSERT is
ignored on its unique key, and the UPDATE matches no row. -/
theorem mergeStore_idem {inp : Store} (hWF : inp.WF) (now1 now2 : Nat) :
    mergeStore inp (mergeStore inp emptyStore now1) now2 =
      mergeStore inp emptyStore now1 := by
  have hWFm : (mergeStore inp emptyStore now1).WF :=
    WF_mergeStore (by decide) inp now1
  show inp.articles.foldl (fun acc a => mergeArticle inp acc a now2)
    (mergeStore inp emptyStore now1) = mergeStore inp emptyStore now1
  apply foldl_eq_self_of_forall
  intro a ha
  have hin : findArticle inp a.title = some a :=
    findArticle_of_mem_nodup hWF.2.2.1 ha
  obtain ⟨r', hr', hp', hl'⟩ :=
    @foldl_merge_complete inp now1 a a hin inp.articles ha emptyStore
  have hr'' : findArticle (mergeStore inp emptyStore now1) a.title = some r' := hr'
  have hl'' : ∀ u, (⟨a.id, u⟩ : LinkRow) ∈ inp.links →
      (⟨r'.id, u⟩ : LinkRow) ∈ (mergeStore inp emptyStore now1).links := hl'
  have hflag : mergeArticleFlag (mergeStore inp emptyStore now1) a now2 =
      mergeStore inp emptyStore now1 := by
    simp only [mergeArticleFlag]
    rw [insertOrIgnoreArticleProcessed_of_found a.processed now2 hr'']
    split
    · next hp =>
        apply markProcessedByTitle_eq_self
        intro row hrow
        cases hcond : (row.title == a.title && row.processed == false) with
        | false => rfl
        | true =>
            exfalso
            rw [Bool.and_eq_true, beq_iff_eq, beq_iff_eq] at hcond
            obtain ⟨hrt, hrp⟩ := hcond
            have hfrow : findArticle (mergeStore inp emptyStore now1) row.title =
                some row := findArticle_of_mem_nodup hWFm.2.2.1 hrow
            rw [hrt, hr''] at hfrow
            have : row = r' := (Option.some.inj hfrow).symm
            rw [this, hp' hp] at hrp
            exact Bool.noConfusion hrp
    · rfl
  have hmatch : mergeArticle inp (mergeStore inp emptyStore now1) a now2 =
      (inp.links.filter (fun l => l.fromArticleId == a.id)).foldl
        (fun acc l => insertOrIgnoreLink acc r'.id l.toArticleTitle)
        (mergeStore inp emptyStore now1) := by
    simp only [mergeArticle, hflag, hin, hr'']
  rw [hmatch]
  apply foldl_eq_self_of_forall
  intro l hl
  obtain ⟨hlmem, hlid⟩ := List.mem_filter.mp hl
  have hlm : (⟨a.id, l.toArticleTitle⟩ : LinkRow) ∈ inp.links := by
    cases l
    simp only [beq_iff_eq] at hlid
    simp_all
  exact insertOrIgnoreLink_of_mem (hl'' l.toArticleTitle hlm)

/-! ## The merge driver over a list of input paths -/

/-- The driver fold, from any starting success count: missing inputs are
skipped without touching the output, present inputs are merged in order. -/
theorem merge_multiple_fold (inputs : List (Option Store)) (out : Store)
    (now : Nat) (k : Nat) :
    inputs.foldl
        (fun acc i =>
          let r := merge_database acc.2 i now
          (acc.1 + (if r.1 then 1 else 0), r.2))
        (k, out) =
      (k + (inputs.filter (·.isSome)).length,
        (inputs.filterMap id).foldl (fun acc inp => mergeStore inp acc now) out) := by
  induction inputs generalizing k out with
  | nil => simp
  | cons i is ih =>
      cases i with
      | none => simpa [merge_database] using ih out k
      | some s =>
          rw [List.foldl_cons]
          simpa [merge_database, Nat.add_assoc, Nat.add_comm 1] using
            ih (mergeStore s out now) (k + 1)

theorem length_filter_isSome_add_isNone (inputs : List (Option Store)) :
    (inputs.filter (·.isSome)).length + (inputs.filter (·.isNone)).length =
      inputs.length := by
  induction inputs with
  | nil => rfl
  | cons i is ih => cases i <;> simp [List.filter_cons] <;> omega

theorem WF_foldl_mergeStore {out : Store} (hWF : out.WF) (stores : List Store)
    (now : Nat) :
    (stores.foldl (fun acc inp => mergeStore inp acc now) out).WF := by
  induction stores generalizing out with
  | nil => exact hWF
  | cons s ss ih =>
      rw [List.foldl_cons]
      exact ih (WF_mergeStore hWF s now)

end WikiMapper

namespace Claims

open WikiMapper

/-- **C2.** `recordResult` (`save_article_links`) is atomic: a failure injected
mid-transaction — after any number `k` of the link inserts — rolls the whole
operation back: the store is exactly as before, zero new link rows are
persisted, and `processed` remains `false` for the title, which therefore
stays eligible for a retry. -/
theorem recordResult_atomic (s : Store) (t : String) (links : List String)
    (now k : Nat) (hp : processedOf s t = some false) :
    save_article_links s t links now (some k) = s ∧
    linkCount (save_article_links s t links now (some k)) = linkCount s ∧
    processedOf (save_article_links s t links now (some k)) t = some false :=
  ⟨save_article_links_failure s t links now k,
   by rw [save_article_links_failure],
   by rw [save_article_links_failure]; exact hp⟩

/-- Witness for `recordResult_atomic`: a store holding one unprocessed
"Apple" row, a save of two links failing after the first link insert. -/
theorem recordResult_atomic_witness :
    processedOf ⟨[⟨0, "Apple", false, 0⟩], [], 1⟩ "Apple" = some false ∧
    (save_article_links ⟨[⟨0, "Apple", false, 0⟩], [], 1⟩ "Apple"
        ["Banana", "Cherry"] 5 (some 1) = ⟨[⟨0, "Apple", false, 0⟩], [], 1⟩ ∧
      linkCount (save_article_links ⟨[⟨0, "Apple", false, 0⟩], [], 1⟩ "Apple"
        ["Banana", "Cherry"] 5 (some 1)) =
        linkCount ⟨[⟨0, "Apple", false, 0⟩], [], 1⟩ ∧
      processedOf (save_article_links ⟨[⟨0, "Apple", false, 0⟩], [], 1⟩ "Apple"
        ["Banana", "Cherry"] 5 (some 1)) "Apple" = some false) :=
  ⟨by decide,
   recordResult_atomic ⟨[⟨0, "Apple", false, 0⟩], [], 1⟩ "Apple"
     ["Banana", "Cherry"] 5 1 (by decide)⟩

/-- **C1, counterexample.** The claim says a transient fetch failure never
results in the article being marked processed.  On the code it does: the
fetch failure is caught inside `get_article_links`, which returns `[]`, and
`batch_run` then calls `save_article_links(article, [])`, which sets
`processed = TRUE`.  Concretely: one unprocessed "Apple" row, fetch raises,
and after the loop body the row is processed. -/
theorem fetch_failure_counterexample :
    processedOf (⟨[⟨0, "Apple", false, 0⟩], [], 1⟩ : Store) "Apple" = some false ∧
    processedOf
      (processArticle ⟨[⟨0, "Apple", false, 0⟩], [], 1⟩ "Apple"
        (Except.error ()) 1 none)
      "Apple" = some true := by decide

/-- **C1, amended.** A title whose fetch fails is treated exactly like "zero
links found": `get_article_links` returns `[]` and the subsequent
`save_article_links` still marks the article processed, so after the loop body
(with the save committing) the article is processed and is never returned by
`get_next_unprocessed_articles` again.  Only a failure of the save transaction
itself leaves the store unchanged — the article then stays unprocessed and
eligible for retry. -/
theorem fetch_failure_amended (s : Store) (t : String) (now : Nat) (hWF : s.WF) :
    processedOf (processArticle s t (Except.error ()) now none) t = some true ∧
    (∀ b, t ∉ get_next_unprocessed_articles
        (processArticle s t (Except.error ()) now none) b) ∧
    (∀ fetch k, processArticle s t fetch now (some k) = s) :=
  ⟨processedOf_save_success s t _ now,
   fun b => not_mem_next_unprocessed_of_save hWF t _ now b,
   fun _ k => save_article_links_failure s t _ now k⟩

/-- Witness for `fetch_failure_amended` at a one-row store. -/
theorem fetch_failure_amended_witness :
    (⟨[⟨0, "Apple", false, 0⟩], [], 1⟩ : Store).WF ∧
    (processedOf (processArticle ⟨[⟨0, "Apple", false, 0⟩], [], 1⟩ "Apple"
        (Except.error ()) 1 none) "Apple" = some true ∧
      (∀ b, "Apple" ∉ get_next_unprocessed_articles
          (processArticle ⟨[⟨0, "Apple", false, 0⟩], [], 1⟩ "Apple"
            (Except.error ()) 1 none) b) ∧
      (∀ fetch k, processArticle ⟨[⟨0, "Apple", false, 0⟩], [], 1⟩ "Apple"
          fetch 1 (some k) = ⟨[⟨0, "Apple", false, 0⟩], [], 1⟩)) :=
  ⟨by decide,
   fetch_failure_amended ⟨[⟨0, "Apple", false, 0⟩], [], 1⟩ "Apple" 1 (by decide)⟩

/-- **C6, counterexample.** The claim says a successful `save_article_links`
refreshes `lastUpdated` in the same transaction.  The UPDATE statement is
`UPDATE articles SET processed = TRUE WHERE id = ?`: it does not touch
`last_updated`, whose DEFAULT only applies at insert time.  Concretely: a row
inserted at time 3 is saved successfully at time 7; `processed` becomes true
but `last_updated` stays 3. -/
theorem recordResult_lastUpdated_counterexample :
    processedOf (save_article_links ⟨[⟨0, "Apple", false, 3⟩], [], 1⟩ "Apple"
      ["Banana"] 7 none) "Apple" = some true ∧
    lastUpdatedOf (save_article_links ⟨[⟨0, "Apple", false, 3⟩], [], 1⟩ "Apple"
      ["Banana"] 7 none) "Apple" = some 3 ∧
    (3 : Nat) ≠ 7 := by decide

/-- **C6, amended.** A successful `save_article_links` inserts the links with
ignore-on-duplicate (every link row `(row id, u)` for `u` in `links` is
present, and UNIQUE-ness of link rows is preserved) and sets
`processed = true` for the title in the same transaction — but it does NOT
refresh `lastUpdated`: a pre-existing row keeps its old timestamp. -/
theorem recordResult_success_amended (s : Store) (t : String) (links : List String)
    (now : Nat) (r : ArticleRow) (hWF : s.WF) (hr : findArticle s t = some r) :
    processedOf (save_article_links s t links now none) t = some true ∧
    (∀ u ∈ links,
      (⟨r.id, u⟩ : LinkRow) ∈ (save_article_links s t links now none).links) ∧
    (save_article_links s t links now none).links.Nodup ∧
    lastUpdatedOf (save_article_links s t links now none) t = some r.lastUpdated := by
  have hrow : savedRow s t now = r := by simp [savedRow, hr]
  refine ⟨processedOf_save_success s t links now, ?_, ?_,
    lastUpdatedOf_save_success_existing links now hr⟩
  · intro u hu
    rw [save_article_links_success]
    rw [markProcessedById_links, mem_links_foldl_insertLinks]
    exact Or.inr ⟨u, hu, by rw [hrow]⟩
  · rw [save_article_links_success, markProcessedById_links]
    exact (WF_foldl_insertLinks (WF_insertOrIgnoreArticle hWF t now) links _).2.2.2

/-- Witness for `recordResult_success_amended`. -/
theorem recordResult_success_amended_witness :
    (⟨[⟨0, "Apple", false, 3⟩], [], 1⟩ : Store).WF ∧
    findArticle ⟨[⟨0, "Apple", false, 3⟩], [], 1⟩ "Apple" = some ⟨0, "Apple", false, 3⟩ ∧
    (processedOf (save_article_links ⟨[⟨0, "Apple", false, 3⟩], [], 1⟩ "Apple"
        ["Banana"] 7 none) "Apple" = some true ∧
      (∀ u ∈ ["Banana"],
        (⟨0, u⟩ : LinkRow) ∈ (save_article_links ⟨[⟨0, "Apple", false, 3⟩], [], 1⟩
          "Apple" ["Banana"] 7 none).links) ∧
      (save_article_links ⟨[⟨0, "Apple", false, 3⟩], [], 1⟩ "Apple"
        ["Banana"] 7 none).links.Nodup ∧
      lastUpdatedOf (save_article_links ⟨[⟨0, "Apple", false, 3⟩], [], 1⟩ "Apple"
        ["Banana"] 7 none) "Apple" = some 3) :=
  ⟨by decide, by decide,
   recordResult_success_amended ⟨[⟨0, "Apple", false, 3⟩], [], 1⟩ "Apple"
     ["Banana"] 7 ⟨0, "Apple", false, 3⟩ (by decide) (by decide)⟩

/-- **C7.** `upsertArticle` (`INSERT OR IGNORE INTO articles (title)`) is an
idempotent insert-if-absent: with the UNIQUE constraint in force (at most one
row per title), calling it twice leaves exactly one row for the title, and the
second call is a complete no-op — in particular it changes neither `processed`
nor `lastUpdated` of the existing row. -/
theorem upsertArticle_idempotent (s : Store) (t : String) (now1 now2 : Nat)
    (hcount : countTitle s t ≤ 1) :
    countTitle (insertOrIgnoreArticle (insertOrIgnoreArticle s t now1) t now2) t = 1 ∧
    insertOrIgnoreArticle (insertOrIgnoreArticle s t now1) t now2 =
      insertOrIgnoreArticle s t now1 ∧
    processedOf (insertOrIgnoreArticle (insertOrIgnoreArticle s t now1) t now2) t =
      processedOf (insertOrIgnoreArticle s t now1) t ∧
    lastUpdatedOf (insertOrIgnoreArticle (insertOrIgnoreArticle s t now1) t now2) t =
      lastUpdatedOf (insertOrIgnoreArticle s t now1) t := by
  have hsecond : insertOrIgnoreArticle (insertOrIgnoreArticle s t now1) t now2 =
      insertOrIgnoreArticle s t now1 :=
    insertOrIgnoreArticle_of_found now2 (findArticle_insertOrIgnoreArticle_self s t now1)
  refine ⟨?_, hsecond, by rw [hsecond], by rw [hsecond]⟩
  rw [hsecond]
  cases h : findArticle s t with
  | some r =>
      rw [insertOrIgnoreArticle_of_found now1 h]
      have hmem : r ∈ s.articles.filter (fun x => x.title == t) :=
        List.mem_filter.mpr ⟨findArticle_mem h, by simp [findArticle_title h]⟩
      have hpos : 1 ≤ countTitle s t := by
        unfold countTitle
        exact List.length_pos.mpr (List.ne_nil_of_mem hmem)
      exact Nat.le_antisymm hcount hpos
  | none =>
      unfold insertOrIgnoreArticle
      rw [h]
      unfold countTitle
      simp only [List.filter_append]
      have hnil : s.articles.filter (fun x => x.title == t) = [] :=
        List.filter_eq_nil_iff.mpr (fun r hr => by
          simpa using List.find?_eq_none.mp h r hr)
      rw [hnil]
      simp

/-- Witness for `upsertArticle_idempotent` on the empty store. -/
theorem upsertArticle_idempotent_witness :
    countTitle emptyStore "Apple" ≤ 1 ∧
    (countTitle (insertOrIgnoreArticle (insertOrIgnoreArticle emptyStore "Apple" 1)
        "Apple" 2) "Apple" = 1 ∧
      insertOrIgnoreArticle (insertOrIgnoreArticle emptyStore "Apple" 1) "Apple" 2 =
        insertOrIgnoreArticle emptyStore "Apple" 1 ∧
      processedOf (insertOrIgnoreArticle (insertOrIgnoreArticle emptyStore "Apple" 1)
        "Apple" 2) "Apple" = processedOf (insertOrIgnoreArticle emptyStore "Apple" 1) "Apple" ∧
      lastUpdatedOf (insertOrIgnoreArticle (insertOrIgnoreArticle emptyStore "Apple" 1)
        "Apple" 2) "Apple" =
        lastUpdatedOf (insertOrIgnoreArticle emptyStore "Apple" 1) "Apple") :=
  ⟨by decide, upsertArticle_idempotent emptyStore "Apple" 1 2 (by decide)⟩

/-- **C10.** In the multi-machine CLI, when `--db-path` equals the argparse
default `'wiki_mapping.db'` (omitted, or explicitly passed as that string),
the path actually opened is `wiki_mapping_machine_{machine_id}.db`, which is
never the documented default path — the user is silently redirected. -/
theorem db_path_redirected (machineId : Nat) :
    resolve_db_path "wiki_mapping.db" machineId =
      "wiki_mapping_machine_" ++ toString machineId ++ ".db" ∧
    resolve_db_path "wiki_mapping.db" machineId ≠ "wiki_mapping.db" := by
  have h1 : resolve_db_path "wiki_mapping.db" machineId =
      "wiki_mapping_machine_" ++ toString machineId ++ ".db" := by
    simp [resolve_db_path]
  refine ⟨h1, ?_⟩
  rw [h1]
  intro h
  have hl := congrArg String.length h
  rw [String.length_append, String.length_append] at hl
  have h21 : ("wiki_mapping_machine_" : String).length = 21 := rfl
  have h3 : (".db" : String).length = 3 := rfl
  have h15 : ("wiki_mapping.db" : String).length = 15 := rfl
  rw [h21, h3, h15] at hl
  omega


/-- Witness for `db_path_redirected` at machine id 3. -/
theorem db_path_redirected_witness :
    resolve_db_path "wiki_mapping.db" 3 =
      "wiki_mapping_machine_" ++ toString 3 ++ ".db" ∧
    resolve_db_path "wiki_mapping.db" 3 ≠ "wiki_mapping.db" :=
  db_path_redirected 3

/-- **C8.** For every store state and every limit,
`get_next_unprocessed_articles` returns at most `limit` titles, all of which
belong to rows with `processed = false`, and (with the rowids increasing in
insertion order, as AUTOINCREMENT guarantees) the result is exactly the titles
of the first `limit` unprocessed rows in insertion order — stable FIFO. -/
theorem nextUnprocessedBatch_spec (s : Store) (batch_size : Nat) (hWF : s.WF) :
    (get_next_unprocessed_articles s batch_size).length ≤ batch_size ∧
    (∀ t ∈ get_next_unprocessed_articles s batch_size,
      ∃ r ∈ s.articles, r.title = t ∧ r.processed = false) ∧
    get_next_unprocessed_articles s batch_size =
      ((s.articles.filter (fun r => r.processed == false)).take batch_size).map
        (·.title) := by
  have hsorted : List.Sorted (fun a b : ArticleRow => a.id ≤ b.id) s.articles := by
    have hp := hWF.1
    rw [List.pairwise_map] at hp
    exact hp.imp (fun h => Nat.le_of_lt h)
  have hs : s.articles.insertionSort (fun a b => a.id ≤ b.id) = s.articles :=
    hsorted.insertionSort_eq
  unfold get_next_unprocessed_articles
  rw [hs]
  refine ⟨?_, ?_, rfl⟩
  · rw [List.length_map, List.length_take]
    exact min_le_left _ _
  · intro t ht
    obtain ⟨r, hrtake, hrt⟩ := List.mem_map.mp ht
    have hrfil := List.mem_of_mem_take hrtake
    obtain ⟨hrmem, hrp⟩ := List.mem_filter.mp hrfil
    exact ⟨r, hrmem, hrt, by simpa using hrp⟩

/-- Witness for `nextUnprocessedBatch_spec`: three rows, the first processed,
batch size 1. -/
theorem nextUnprocessedBatch_spec_witness :
    (⟨[⟨0, "A", true, 0⟩, ⟨1, "B", false, 0⟩, ⟨2, "C", false, 0⟩], [], 3⟩ : Store).WF ∧
    ((get_next_unprocessed_articles
        ⟨[⟨0, "A", true, 0⟩, ⟨1, "B", false, 0⟩, ⟨2, "C", false, 0⟩], [], 3⟩ 1).length ≤ 1 ∧
      (∀ t ∈ get_next_unprocessed_articles
          ⟨[⟨0, "A", true, 0⟩, ⟨1, "B", false, 0⟩, ⟨2, "C", false, 0⟩], [], 3⟩ 1,
        ∃ r ∈ (⟨[⟨0, "A", true, 0⟩, ⟨1, "B", false, 0⟩, ⟨2, "C", false, 0⟩], [], 3⟩ : Store).articles,
          r.title = t ∧ r.processed = false) ∧
      get_next_unprocessed_articles
          ⟨[⟨0, "A", true, 0⟩, ⟨1, "B", false, 0⟩, ⟨2, "C", false, 0⟩], [], 3⟩ 1 =
        (((⟨[⟨0, "A", true, 0⟩, ⟨1, "B", false, 0⟩, ⟨2, "C", false, 0⟩], [], 3⟩ : Store).articles.filter
          (fun r => r.processed == false)).take 1).map (·.title)) :=
  ⟨by decide,
   nextUnprocessedBatch_spec
     ⟨[⟨0, "A", true, 0⟩, ⟨1, "B", false, 0⟩, ⟨2, "C", false, 0⟩], [], 3⟩ 1 (by decide)⟩

set_option maxRecDepth 1000000 in
/-- The embedded partition hash is genuinely MD5:
`int(hashlib.md5("Apple".encode()).hexdigest(), 16)` is this number. -/
theorem get_article_hash_reference :
    get_article_hash "Apple" = 211859036441461519383052513295366044732 := by
  decide

/-- **C3.** `assign(t, N) = get_article_hash t % N` is a pure function of the
title (trivially deterministic across repeated calls — equal titles give equal
indices), lies in `[0, N)` for `N ≥ 1`, and for fixed `N` the machine sets
`{t : should_process_article i N t}` for `i < N` are pairwise disjoint and
cover the full title universe. -/
theorem assign_partitions (N : Nat) (hN : 1 ≤ N) :
    (∀ t₁ t₂ : String, t₁ = t₂ →
      get_article_hash t₁ % N = get_article_hash t₂ % N) ∧
    (∀ t : String, get_article_hash t % N < N) ∧
    (∀ i j : Nat, i < N → j < N → i ≠ j →
      {t : String | should_process_article i N t = true} ∩
      {t : String | should_process_article j N t = true} = ∅) ∧
    (⋃ i ∈ Finset.range N, {t : String | should_process_article i N t = true}) =
      Set.univ := by
  refine ⟨fun t₁ t₂ ht => by rw [ht], fun t => Nat.mod_lt _ hN, ?_, ?_⟩
  · intro i j hi hj hij
    apply Set.eq_empty_iff_forall_not_mem.mpr
    intro t ht
    obtain ⟨h1, h2⟩ := ht
    simp only [Set.mem_setOf_eq, should_process_article, beq_iff_eq] at h1 h2
    exact hij (h1.symm.trans h2)
  · apply Set.eq_univ_iff_forall.mpr
    intro t
    simp only [Set.mem_iUnion, Set.mem_setOf_eq, should_process_article, beq_iff_eq,
      Finset.mem_range, exists_prop]
    exact ⟨get_article_hash t % N, Nat.mod_lt _ hN, rfl⟩

/-- Witness for `assign_partitions` at `N = 2`. -/
theorem assign_partitions_witness :
    1 ≤ 2 ∧
    ((∀ t₁ t₂ : String, t₁ = t₂ →
        get_article_hash t₁ % 2 = get_article_hash t₂ % 2) ∧
      (∀ t : String, get_article_hash t % 2 < 2) ∧
      (∀ i j : Nat, i < 2 → j < 2 → i ≠ j →
        {t : String | should_process_article i 2 t = true} ∩
        {t : String | should_process_article j 2 t = true} = ∅) ∧
      (⋃ i ∈ Finset.range 2, {t : String | should_process_article i 2 t = true}) =
        Set.univ) :=
  ⟨by decide, assign_partitions 2 (by decide)⟩

/-- **C4.** Merge OR-semantics.  If shard `X` holds `t` unprocessed and shard
`Y` holds `t` processed, then merging both shards into a fresh output — in
either order — yields a row for `t` with `processed = true` whose link set is
exactly the union of the two shards' links from `t`; and in general a merge
never downgrades an output row whose flag is already `true`. -/
theorem merge_or_semantics (X Y : Store) (t : String) (rx ry : ArticleRow)
    (n1 n2 n3 n4 : Nat)
    (hrx : findArticle X t = some rx) (_hrxp : rx.processed = false)
    (hry : findArticle Y t = some ry) (hryp : ry.processed = true) :
    (processedOf (mergeStore Y (mergeStore X emptyStore n1) n2) t = some true ∧
      ∀ u, u ∈ linkTitlesFrom (mergeStore Y (mergeStore X emptyStore n1) n2) t ↔
        (u ∈ linkTitlesFrom X t ∨ u ∈ linkTitlesFrom Y t)) ∧
    (processedOf (mergeStore X (mergeStore Y emptyStore n3) n4) t = some true ∧
      ∀ u, u ∈ linkTitlesFrom (mergeStore X (mergeStore Y emptyStore n3) n4) t ↔
        (u ∈ linkTitlesFrom X t ∨ u ∈ linkTitlesFrom Y t)) ∧
    (∀ (out inp : Store) (now : Nat), processedOf out t = some true →
      processedOf (mergeStore inp out now) t = some true) := by
  have hWFe : emptyStore.WF := by decide
  have hRefe : emptyStore.LinksRef := by decide
  have hempty : ∀ u, u ∉ linkTitlesFrom emptyStore t := by
    intro u hu
    simp [linkTitlesFrom, findArticle, emptyStore] at hu
  have iffX : ∀ u, u ∈ linkTitlesFrom (mergeStore X emptyStore n1) t ↔
      u ∈ linkTitlesFrom X t := fun u =>
    ⟨fun h => (linkTitlesFrom_mergeStore_sound hWFe hRefe h).resolve_left (hempty u),
     fun h => linkTitlesFrom_mergeStore_inp hrx h⟩
  have iffY : ∀ u, u ∈ linkTitlesFrom (mergeStore Y emptyStore n3) t ↔
      u ∈ linkTitlesFrom Y t := fun u =>
    ⟨fun h => (linkTitlesFrom_mergeStore_sound hWFe hRefe h).resolve_left (hempty u),
     fun h => linkTitlesFrom_mergeStore_inp hry h⟩
  refine ⟨⟨processedOf_mergeStore_inp hry hryp, fun u => ⟨?_, ?_⟩⟩,
    ⟨processedOf_mergeStore_mono (processedOf_mergeStore_inp hry hryp),
      fun u => ⟨?_, ?_⟩⟩,
    fun out inp now h => processedOf_mergeStore_mono h⟩
  · intro h
    rcases linkTitlesFrom_mergeStore_sound (WF_mergeStore hWFe X n1)
      (LinksRef_mergeStore hRefe X n1) h with h | h
    · exact Or.inl ((iffX u).mp h)
    · exact Or.inr h
  · rintro (h | h)
    · exact linkTitlesFrom_mergeStore_mono ((iffX u).mpr h)
    · exact linkTitlesFrom_mergeStore_inp hry h
  · intro h
    rcases linkTitlesFrom_mergeStore_sound (WF_mergeStore hWFe Y n3)
      (LinksRef_mergeStore hRefe Y n3) h with h | h
    · exact Or.inr ((iffY u).mp h)
    · exact Or.inl h
  · rintro (h | h)
    · exact linkTitlesFrom_mergeStore_inp hrx h
    · exact linkTitlesFrom_mergeStore_mono ((iffY u).mpr h)

/-- Witness for `merge_or_semantics`: shard `X` holds "Apple" unprocessed with
link Apple→Banana, shard `Y` holds "Apple" processed with link Apple→Cherry. -/
theorem merge_or_semantics_witness :
    findArticle ⟨[⟨0, "Apple", false, 0⟩], [⟨0, "Banana"⟩], 1⟩ "Apple" =
      some ⟨0, "Apple", false, 0⟩ ∧
    (⟨0, "Apple", false, 0⟩ : ArticleRow).processed = false ∧
    findArticle ⟨[⟨5, "Apple", true, 0⟩], [⟨5, "Cherry"⟩], 6⟩ "Apple" =
      some ⟨5, "Apple", true, 0⟩ ∧
    (⟨5, "Apple", true, 0⟩ : ArticleRow).processed = true ∧
    ((processedOf (mergeStore ⟨[⟨5, "Apple", true, 0⟩], [⟨5, "Cherry"⟩], 6⟩
        (mergeStore ⟨[⟨0, "Apple", false, 0⟩], [⟨0, "Banana"⟩], 1⟩ emptyStore 1) 2)
        "Apple" = some true ∧
      ∀ u, u ∈ linkTitlesFrom (mergeStore ⟨[⟨5, "Apple", true, 0⟩], [⟨5, "Cherry"⟩], 6⟩
          (mergeStore ⟨[⟨0, "Apple", false, 0⟩], [⟨0, "Banana"⟩], 1⟩ emptyStore 1) 2)
          "Apple" ↔
        (u ∈ linkTitlesFrom ⟨[⟨0, "Apple", false, 0⟩], [⟨0, "Banana"⟩], 1⟩ "Apple" ∨
          u ∈ linkTitlesFrom ⟨[⟨5, "Apple", true, 0⟩], [⟨5, "Cherry"⟩], 6⟩ "Apple")) ∧
    (processedOf (mergeStore ⟨[⟨0, "Apple", false, 0⟩], [⟨0, "Banana"⟩], 1⟩
        (mergeStore ⟨[⟨5, "Apple", true, 0⟩], [⟨5, "Cherry"⟩], 6⟩ emptyStore 3) 4)
        "Apple" = some true ∧
      ∀ u, u ∈ linkTitlesFrom (mergeStore ⟨[⟨0, "Apple", false, 0⟩], [⟨0, "Banana"⟩], 1⟩
          (mergeStore ⟨[⟨5, "Apple", true, 0⟩], [⟨5, "Cherry"⟩], 6⟩ emptyStore 3) 4)
          "Apple" ↔
        (u ∈ linkTitlesFrom ⟨[⟨0, "Apple", false, 0⟩], [⟨0, "Banana"⟩], 1⟩ "Apple" ∨
          u ∈ linkTitlesFrom ⟨[⟨5, "Apple", true, 0⟩], [⟨5, "Cherry"⟩], 6⟩ "Apple")) ∧
    (∀ (out inp : Store) (now : Nat), processedOf out "Apple" = some true →
      processedOf (mergeStore inp out now) "Apple" = some true)) :=
  ⟨by decide, by decide, by decide, by decide,
   merge_or_semantics ⟨[⟨0, "Apple", false, 0⟩], [⟨0, "Banana"⟩], 1⟩
     ⟨[⟨5, "Apple", true, 0⟩], [⟨5, "Cherry"⟩], 6⟩ "Apple"
     ⟨0, "Apple", false, 0⟩ ⟨5, "Apple", true, 0⟩ 1 2 3 4
     (by decide) (by decide) (by decide) (by decide)⟩

/-- **C5.** Merge is idempotent: merging the same input store into a fresh
output twice yields the same final store — in particular the same article
count and link count — as merging it once, because every underlying write
deduplicates on its unique key (title for articles,
`(from_article_id, to_article_title)` for links). -/
theorem merge_idempotent (inp : Store) (now1 now2 : Nat) (hWF : inp.WF) :
    mergeStore inp (mergeStore inp emptyStore now1) now2 =
      mergeStore inp emptyStore now1 ∧
    articleCount (mergeStore inp (mergeStore inp emptyStore now1) now2) =
      articleCount (mergeStore inp emptyStore now1) ∧
    linkCount (mergeStore inp (mergeStore inp emptyStore now1) now2) =
      linkCount (mergeStore inp emptyStore now1) := by
  have h := mergeStore_idem hWF now1 now2
  exact ⟨h, by rw [h], by rw [h]⟩

/-- Witness for `merge_idempotent`: two articles, two links. -/
theorem merge_idempotent_witness :
    (⟨[⟨0, "Apple", true, 0⟩, ⟨1, "Banana", false, 0⟩],
      [⟨0, "Banana"⟩, ⟨0, "Cherry"⟩], 2⟩ : Store).WF ∧
    (mergeStore ⟨[⟨0, "Apple", true, 0⟩, ⟨1, "Banana", false, 0⟩],
        [⟨0, "Banana"⟩, ⟨0, "Cherry"⟩], 2⟩
      (mergeStore ⟨[⟨0, "Apple", true, 0⟩, ⟨1, "Banana", false, 0⟩],
        [⟨0, "Banana"⟩, ⟨0, "Cherry"⟩], 2⟩ emptyStore 7) 9 =
      mergeStore ⟨[⟨0, "Apple", true, 0⟩, ⟨1, "Banana", false, 0⟩],
        [⟨0, "Banana"⟩, ⟨0, "Cherry"⟩], 2⟩ emptyStore 7 ∧
    articleCount (mergeStore ⟨[⟨0, "Apple", true, 0⟩, ⟨1, "Banana", false, 0⟩],
        [⟨0, "Banana"⟩, ⟨0, "Cherry"⟩], 2⟩
      (mergeStore ⟨[⟨0, "Apple", true, 0⟩, ⟨1, "Banana", false, 0⟩],
        [⟨0, "Banana"⟩, ⟨0, "Cherry"⟩], 2⟩ emptyStore 7) 9) =
      articleCount (mergeStore ⟨[⟨0, "Apple", true, 0⟩, ⟨1, "Banana", false, 0⟩],
        [⟨0, "Banana"⟩, ⟨0, "Cherry"⟩], 2⟩ emptyStore 7) ∧
    linkCount (mergeStore ⟨[⟨0, "Apple", true, 0⟩, ⟨1, "Banana", false, 0⟩],
        [⟨0, "Banana"⟩, ⟨0, "Cherry"⟩], 2⟩
      (mergeStore ⟨[⟨0, "Apple", true, 0⟩, ⟨1, "Banana", false, 0⟩],
        [⟨0, "Banana"⟩, ⟨0, "Cherry"⟩], 2⟩ emptyStore 7) 9) =
      linkCount (mergeStore ⟨[⟨0, "Apple", true, 0⟩, ⟨1, "Banana", false, 0⟩],
        [⟨0, "Banana"⟩, ⟨0, "Cherry"⟩], 2⟩ emptyStore 7)) :=
  ⟨by decide,
   merge_idempotent ⟨[⟨0, "Apple", true, 0⟩, ⟨1, "Banana", false, 0⟩],
     [⟨0, "Banana"⟩, ⟨0, "Cherry"⟩], 2⟩ 7 9 (by decide)⟩

/-- **C9.** A missing input store is a non-fatal, isolated failure of the
merge: `merge_database` logs and returns `False` with the output untouched;
the driver continues with every remaining input (the final store is exactly
the in-order merge of the present inputs); the success count of the final
report counts only the present inputs, so each missing input contributes one
to the failed count (`total - successes`); and the output store is left
well-formed (valid and queryable). -/
theorem merge_missing_input (out : Store) (inputs : List (Option Store))
    (now : Nat) (hWF : out.WF) :
    merge_database out none now = (false, out) ∧
    (merge_multiple_databases out inputs now).1 =
      (inputs.filter (·.isSome)).length ∧
    inputs.length - (merge_multiple_databases out inputs now).1 =
      (inputs.filter (·.isNone)).length ∧
    (merge_multiple_databases out inputs now).2 =
      (inputs.filterMap id).foldl (fun acc inp => mergeStore inp acc now) out ∧
    ((merge_multiple_databases out inputs now).2).WF := by
  have hfold := merge_multiple_fold inputs out now 0
  have h1 : (merge_multiple_databases out inputs now).1 =
      (inputs.filter (·.isSome)).length := by
    unfold merge_multiple_databases
    rw [hfold]
    simp
  have h2 : (merge_multiple_databases out inputs now).2 =
      (inputs.filterMap id).foldl (fun acc inp => mergeStore inp acc now) out := by
    unfold merge_multiple_databases
    rw [hfold]
  refine ⟨rfl, h1, ?_, h2, ?_⟩
  · rw [h1]
    have := length_filter_isSome_add_isNone inputs
    omega
  · rw [h2]
    exact WF_foldl_mergeStore hWF _ now

/-- Witness for `merge_missing_input`: one present input between two missing
ones, merged into a fresh output. -/
theorem merge_missing_input_witness :
    emptyStore.WF ∧
    (merge_database emptyStore none 1 = (false, emptyStore) ∧
      (merge_multiple_databases emptyStore
        [none, some (⟨[⟨0, "Apple", true, 0⟩], [⟨0, "Banana"⟩], 1⟩ : Store), none] 1).1 =
        ([none, some (⟨[⟨0, "Apple", true, 0⟩], [⟨0, "Banana"⟩], 1⟩ : Store), none].filter
          (·.isSome)).length ∧
      ([none, some (⟨[⟨0, "Apple", true, 0⟩], [⟨0, "Banana"⟩], 1⟩ : Store),
          (none : Option Store)].length) -
        (merge_multiple_databases emptyStore
          [none, some (⟨[⟨0, "Apple", true, 0⟩], [⟨0, "Banana"⟩], 1⟩ : Store), none] 1).1 =
        ([none, some (⟨[⟨0, "Apple", true, 0⟩], [⟨0, "Banana"⟩], 1⟩ : Store), none].filter
          (·.isNone)).length ∧
      (merge_multiple_databases emptyStore
        [none, some (⟨[⟨0, "Apple", true, 0⟩], [⟨0, "Banana"⟩], 1⟩ : Store), none] 1).2 =
        ([none, some (⟨[⟨0, "Apple", true, 0⟩], [⟨0, "Banana"⟩], 1⟩ : Store),
          none].filterMap id).foldl (fun acc inp => mergeStore inp acc 1)
          emptyStore ∧
      ((merge_multiple_databases emptyStore
        [none, some (⟨[⟨0, "Apple", true, 0⟩], [⟨0, "Banana"⟩], 1⟩ : Store), none] 1).2).WF) :=
  ⟨by decide,
   merge_missing_input emptyStore
     [none, some (⟨[⟨0, "Apple", true, 0⟩], [⟨0, "Banana"⟩], 1⟩ : Store), none] 1 (by decide)⟩

end Claims
